import Mathlib

/-!
Code_Visualiser: the single-file algorithm exercises under `backend/temp`

Shallow embedding of the C++ programs

* `solution_953adc38.cpp` / `solution_2f68406d.cpp`: search in a rotated ascending array,
* `solution_a9126c06.cpp`: `maxSubArray`,
* `solution_1768920160273.cpp`: `mergeIntervals`,
* `solution_1768980018846.cpp`: `canConstruct`,
* `solution_26af7e88.cpp`: missing number,
* `solution_f8e8a5bd.cpp`: array intersection,

followed by the theorems about them.

Conventions.  A `vector<int>` is a `List Int`.  The index variables `l`, `r`, `m` of the
search are `Int` (`r` starts at `n - 1`, which is `-1` for the empty vector).  Inside the
loop they stay in `[-1, n]`, so no 32-bit operation on them can wrap and they are kept as
unbounded integers.  An element read outside `[0, n-1]` is undefined behaviour in C++; the
embedding makes it an explicit `fault` result.  Where 32-bit arithmetic can wrap (the
counters of `canConstruct`, `n + 1` in the missing-number program) the wrap is written
out with `% 2^32`.
-/

namespace CodeVisualiser

/-! ## Rotated-array search (`solution_953adc38.cpp`, lines 18-40) -/

/-- Result of running the search loop: the value of `ans` that is printed, a read outside
the vector, or an exhausted iteration budget. -/
inductive Outcome where
  | ans (v : Int)
  | fault
  | outOfFuel
  deriving DecidableEq, Repr

/-- Result of one execution of the loop body. -/
inductive Step where
  | found (m : Int)
  | next (l r : Int)
  | fault
  deriving DecidableEq, Repr

/-- The read `a[i]` of a `vector<int>`; `none` when `i` is not in `[0, n-1]`. -/
def readAt (a : List Int) (i : Int) : Option Int :=
  if 0 ≤ i then a[i.toNat]? else none

/-- The midpoint `l + (r - l) / 2`; C++ `/` on `int` truncates toward zero. -/
def mid (l r : Int) : Int := l + (r - l).tdiv 2

/-- One execution of the body of `while (l <= r)`, lines 20-37.  The reads happen in the
order of the source, `a[r]` only after `a[m] < target` held (short-circuit `&&`). -/
def searchStep (a : List Int) (target l r : Int) : Step :=
  let m := mid l r
  match readAt a m with
  | none => Step.fault
  | some am =>
    if am = target then Step.found m
    else
      match readAt a l with
      | none => Step.fault
      | some al =>
        if al ≤ am then
          if al ≤ target ∧ target < am then Step.next l (m - 1) else Step.next (m + 1) r
        else if am < target then
          match readAt a r with
          | none => Step.fault
          | some ar => if target ≤ ar then Step.next (m + 1) r else Step.next l (m - 1)
        else Step.next l (m - 1)

/-- The loop `while (l <= r) { ... }` run for at most `fuel` iterations; `ans` is `-1`
unless the body breaks with `ans = m`. -/
def searchLoop (a : List Int) (target : Int) : Nat → Int → Int → Outcome
  | 0, l, r => if l ≤ r then Outcome.outOfFuel else Outcome.ans (-1)
  | fuel + 1, l, r =>
    if l ≤ r then
      match searchStep a target l r with
      | Step.found m => Outcome.ans m
      | Step.next l2 r2 => searchLoop a target fuel l2 r2
      | Step.fault => Outcome.fault
    else Outcome.ans (-1)

/-- The search of `main`: `l = 0, r = n - 1, ans = -1`, then the loop.  The budget
`n` is never exhausted (each iteration shrinks `r - l`). -/
def locate (a : List Int) (target : Int) : Outcome :=
  searchLoop a target a.length 0 ((a.length : Int) - 1)

/-- The pairs `(l, r)` with which the loop condition is evaluated during the run on `a`
and `target`: the initial pair, and the pair left by every completed iteration. -/
inductive Reach (a : List Int) (target : Int) : Int → Int → Prop where
  | init : Reach a target 0 ((a.length : Int) - 1)
  | step {l r l2 r2 : Int} : Reach a target l r → l ≤ r →
      searchStep a target l r = Step.next l2 r2 → Reach a target l2 r2

/-- The element at index `i`, with a default outside the vector (used in proofs only). -/
def val (a : List Int) (i : Int) : Int := a.getD i.toNat 0

/-- Shape of a rotated strictly ascending vector of length `n`, read through `f`: two
strictly ascending runs `[0, p)` and `[p, n)`, every element of the second run below
every element of the first. -/
def RotAsc (f : Int → Int) (n : Int) : Prop :=
  ∃ p : Int, (∀ j k, 0 ≤ j → j < k → k < p → f j < f k) ∧
    (∀ j k, 0 ≤ j → p ≤ j → j < k → k < n → f j < f k) ∧
    (∀ j k, 0 ≤ j → j < p → p ≤ k → k < n → f k < f j)

/-! ## Machine integers -/

/-- A value of type `int` after an arithmetic operation: the two's-complement
representative in `[-2^31, 2^31)`.  Signed overflow is undefined behaviour in C++; the
embedding takes the wrap-around that the usual compilers produce. -/
def wrap32 (x : Int) : Int := (x + 2147483648) % 4294967296 - 2147483648

/-- The values of the type `int`. -/
def inInt32 (x : Int) : Prop := -2147483648 ≤ x ∧ x ≤ 2147483647

instance inInt32_decidable (x : Int) : Decidable (inInt32 x) := by
  unfold inInt32
  exact inferInstance

/-! ## Maximum subarray sum (`solution_a9126c06.cpp`, lines 4-11) -/

/-- The loop `for (i = 1; i < nums.size(); i++)` over the remaining elements
`nums[i], nums[i+1], ...`, carrying `cur` and `best`; returns the final `best`.  The
sum `cur + nums[i]` is an `int` addition; `max` only compares. -/
def maxSubLoop : List Int → Int → Int → Int
  | [], _, best => best
  | x :: rest, cur, best =>
    maxSubLoop rest (max x (wrap32 (cur + x))) (max best (max x (wrap32 (cur + x))))

/-- The function `maxSubArray`.  The first statement reads `nums[0]`, which is outside an
empty vector: `none`. -/
def maxSubArray (nums : List Int) : Option Int :=
  match nums with
  | [] => none
  | x :: rest => some (maxSubLoop rest x x)

/-- No addition `cur + nums[i]` of the loop, started with `cur`, leaves the range of
`int`. -/
def maxSubNoOverflow : List Int → Int → Prop
  | [], _ => True
  | x :: rest, cur => inInt32 (cur + x) ∧ maxSubNoOverflow rest (max x (wrap32 (cur + x)))

instance maxSubNoOverflow_decidable :
    (rest : List Int) → (cur : Int) → Decidable (maxSubNoOverflow rest cur)
  | [], _ => isTrue trivial
  | x :: rest, cur =>
    have := maxSubNoOverflow_decidable rest (max x (wrap32 (cur + x)))
    decidable_of_iff (inInt32 (cur + x) ∧ maxSubNoOverflow rest (max x (wrap32 (cur + x))))
      Iff.rfl

/-- The run of `maxSubArray` on `nums` has no 32-bit overflow. -/
def maxSubArrayNoOverflow (nums : List Int) : Prop :=
  match nums with
  | [] => True
  | x :: rest => maxSubNoOverflow rest x

instance maxSubArrayNoOverflow_decidable (nums : List Int) :
    Decidable (maxSubArrayNoOverflow nums) :=
  match nums with
  | [] => isTrue trivial
  | x :: rest => maxSubNoOverflow_decidable rest x

/-- The sum `nums[i] + ... + nums[j]`. -/
def segSum (nums : List Int) (i j : Nat) : Int := ((nums.drop i).take (j + 1 - i)).sum

/-! ## Interval merging (`solution_1768920160273.cpp`, lines 4-17) -/

/-- The order `std::sort` uses on the two-entry vectors `[s, e]`: `operator<` of
`vector<int>` is lexicographic; this is the corresponding `≤`. -/
def ivLe (a b : Int × Int) : Prop := a.1 < b.1 ∨ (a.1 = b.1 ∧ a.2 ≤ b.2)

instance ivLe_decidable : DecidableRel ivLe := fun a b => by
  unfold ivLe
  exact inferInstance

instance ivLe_total : IsTotal (Int × Int) ivLe :=
  ⟨fun a b => by unfold ivLe; omega⟩

instance ivLe_trans : IsTrans (Int × Int) ivLe :=
  ⟨fun a b c h1 h2 => by unfold ivLe at *; omega⟩

instance ivLe_antisymm : IsAntisymm (Int × Int) ivLe :=
  ⟨fun a b h1 h2 => by
    unfold ivLe at *
    exact Prod.ext (by omega) (by omega)⟩

/-- The call `sort(intervals.begin(), intervals.end())`.  The order is total and two
intervals that compare equal are identical, so the sorted vector is determined by the
input (see `sortIntervals_unique`); insertion sort computes it. -/
def sortIntervals (intervals : List (Int × Int)) : List (Int × Int) :=
  intervals.insertionSort ivLe

/-- The loop of `mergeIntervals` over `intervals[i], intervals[i+1], ...`.  The vector
`res` of the source is `res ++ [back]` here: `back` is `res.back()`, the only entry the
loop reads or writes. -/
def mergeLoop (res : List (Int × Int)) (back : Int × Int) :
    List (Int × Int) → List (Int × Int)
  | [] => res ++ [back]
  | iv :: rest =>
    if iv.1 ≤ back.2 then mergeLoop res (back.1, max back.2 iv.2) rest
    else mergeLoop (res ++ [back]) iv rest

/-- The function `mergeIntervals`: empty input returns empty; otherwise sort, start `res`
with `intervals[0]` and run the loop from `i = 1`. -/
def mergeIntervals (intervals : List (Int × Int)) : List (Int × Int) :=
  match intervals with
  | [] => []
  | _ :: _ =>
    match sortIntervals intervals with
    | [] => []
    | first :: rest => mergeLoop [] first rest

/-- The integer `x` lies in some interval of the list. -/
def covers (l : List (Int × Int)) (x : Int) : Prop := ∃ iv ∈ l, iv.1 ≤ x ∧ x ≤ iv.2

/-! ## Ransom note (`solution_1768980018846.cpp`, lines 4-11) -/

/-- The index `c - 'a'` into `freq`. -/
def letterIndex (c : Char) : Int := (c.toNat : Int) - 97

/-- The loop `for (char c : magazine) freq[c - 'a']++`; `none` when an index falls
outside `freq`. -/
def countLoop : List Char → List Int → Option (List Int)
  | [], freq => some freq
  | c :: cs, freq =>
    match readAt freq (letterIndex c) with
    | none => none
    | some v => countLoop cs (freq.set (letterIndex c).toNat (wrap32 (v + 1)))

/-- The loop `for (char c : ransomNote) if (--freq[c - 'a'] < 0) return false;` followed
by `return true`. -/
def noteLoop : List Char → List Int → Option Bool
  | [], _ => some true
  | c :: cs, freq =>
    match readAt freq (letterIndex c) with
    | none => none
    | some v =>
      if wrap32 (v - 1) < 0 then some false
      else noteLoop cs (freq.set (letterIndex c).toNat (wrap32 (v - 1)))

/-- The function `canConstruct`; a `string` is the list of its characters and `freq`
starts as 26 zeros. -/
def canConstruct (ransomNote magazine : List Char) : Option Bool :=
  match countLoop magazine (List.replicate 26 0) with
  | none => none
  | some freq => noteLoop ransomNote freq

/-- The lowercase letters `'a'..'z'`. -/
def isLower (c : Char) : Prop := 97 ≤ c.toNat ∧ c.toNat ≤ 122

/-! ## Missing number (`solution_26af7e88.cpp`, lines 10-14) -/

/-- A value of type `long long` after an arithmetic operation: the two's-complement
representative in `[-2^63, 2^63)`. -/
def wrap64 (x : Int) : Int :=
  (x + 9223372036854775808) % 18446744073709551616 - 9223372036854775808

/-- The loop `for (int x : nums) actual += x` on the `long long` accumulator. -/
def sumLoop : List Int → Int → Int
  | [], actual => actual
  | x :: xs, actual => sumLoop xs (wrap64 (actual + x))

/-- The value written by `main`: `expected - actual` with
`expected = 1LL*n*(n+1)/2`.  `n` is the length of `nums`; `1LL*n` and the product are
`long long` operations, while `n + 1` is evaluated in `int` before it is widened. -/
def missingNumber (nums : List Int) : Int :=
  let n : Int := (nums.length : Int)
  let expected : Int := (wrap64 (wrap64 (1 * n) * wrap32 (n + 1))).tdiv 2
  let actual : Int := sumLoop nums 0
  wrap64 (expected - actual)

/-! ## Array intersection (`solution_f8e8a5bd.cpp`, lines 12-19) -/

/-- `s.insert(x)` on an `unordered_set<int>`.  The set is a duplicate-free list; the
iteration order of the container is unspecified, the list gives one such order. -/
def usInsert (s : List Int) (x : Int) : List Int := if x ∈ s then s else x :: s

/-- The range constructor `unordered_set<int> s1(a.begin(), a.end())`. -/
def usOfRange (a : List Int) : List Int := a.foldl usInsert []

/-- The loop `for (int x : b) if (s1.count(x)) res.insert(x);`. -/
def intersectLoop (s1 : List Int) : List Int → List Int → List Int
  | [], res => res
  | x :: xs, res => intersectLoop s1 xs (if s1.count x ≠ 0 then usInsert res x else res)

/-- The values written by `for (int x : res) cout << x << " "`, in the order of the
iteration over `res`. -/
def intersection (a b : List Int) : List Int := intersectLoop (usOfRange a) b []

/-! ## Output of the two search programs (`solution_953adc38.cpp`, `solution_2f68406d.cpp`) -/

/-- One item written to `cout`: the line `DEBUG: n=..., target=...` (debug variant, line
18), the line `DEBUG: l=..., r=..., m=..., a[m]=...` (debug variant, line 23), or the final
`cout << ans`. -/
inductive Out where
  | debugHeader (n target : Int)
  | debugIter (l r m am : Int)
  | result (ans : Int)
  deriving DecidableEq, Repr

/-- Number of executions of the loop body in the run of `searchLoop`. -/
def searchIters (a : List Int) (target : Int) : Nat → Int → Int → Nat
  | 0, _, _ => 0
  | fuel + 1, l, r =>
    if l ≤ r then
      match searchStep a target l r with
      | Step.next l2 r2 => 1 + searchIters a target fuel l2 r2
      | _ => 1
    else 0

/-- Output of `solution_953adc38.cpp` from line 18 on, with the result of the search: the
loop (lines 19-38) contains no output statement, line 40 writes `ans`. -/
def plainMain (a : List Int) (target : Int) : List Out × Outcome :=
  match locate a target with
  | Outcome.ans v => ([Out.result v], Outcome.ans v)
  | other => ([], other)

/-- One execution of the loop body of `solution_2f68406d.cpp`, lines 22-41: line 23 writes
the DEBUG line (reading `a[m]`), lines 25-41 are lines 21-37 of `solution_953adc38.cpp`. -/
def debugStep (a : List Int) (target l r : Int) : Option Out × Step :=
  match readAt a (mid l r) with
  | none => (none, Step.fault)
  | some am => (some (Out.debugIter l r (mid l r) am), searchStep a target l r)

/-- The loop of `solution_2f68406d.cpp` (lines 21-42) with the lines it writes. -/
def debugLoop (a : List Int) (target : Int) : Nat → Int → Int → List Out × Outcome
  | 0, l, r => if l ≤ r then ([], Outcome.outOfFuel) else ([], Outcome.ans (-1))
  | fuel + 1, l, r =>
    if l ≤ r then
      match debugStep a target l r with
      | (line, Step.found m) => (line.toList, Outcome.ans m)
      | (line, Step.next l2 r2) =>
        (line.toList ++ (debugLoop a target fuel l2 r2).1, (debugLoop a target fuel l2 r2).2)
      | (line, Step.fault) => (line.toList, Outcome.fault)
    else ([], Outcome.ans (-1))

/-- Output of `solution_2f68406d.cpp` from line 18 on, with the result of the search. -/
def debugMain (a : List Int) (target : Int) : List Out × Outcome :=
  match debugLoop a target a.length 0 ((a.length : Int) - 1) with
  | (lines, Outcome.ans v) =>
    (Out.debugHeader a.length target :: lines ++ [Out.result v], Outcome.ans v)
  | (lines, other) => (Out.debugHeader a.length target :: lines, other)

/-- The bound `floor(log2 w) + 1` on the iterations for a window of `w ≥ 1` elements, and
`0` for the empty window. -/
def halvingBound (w : Nat) : Nat := if w = 0 then 0 else Nat.log 2 w + 1

/-- The midpoint as the machine computes it: every `int` operation wrapped to 32 bits. -/
def midWrapped (low high : Int) : Int :=
  wrap32 (low + wrap32 ((wrap32 (high - low)).tdiv 2))

/-- The naive midpoint `(low + high) / 2` with the sum wrapped to 32 bits. -/
def midNaive (low high : Int) : Int := wrap32 ((wrap32 (low + high)).tdiv 2)

/-! ## Theorems: rotated-array search -/

theorem readAt_eq_val (a : List Int) (i : Int) (h0 : 0 ≤ i) (h1 : i < a.length) :
    readAt a i = some (val a i) := by
  have h2 : i.toNat < a.length := by omega
  simp [readAt, val, h0, List.getD, List.getElem?_eq_getElem h2]

theorem mid_bounds (l r : Int) (h : l ≤ r) :
    l ≤ mid l r ∧ mid l r ≤ r ∧ mid l r = l + (r - l) / 2 := by
  have h2 : (r - l).tdiv 2 = (r - l) / 2 := Int.tdiv_eq_ediv (by omega) (by omega)
  unfold mid
  rw [h2]
  omega

/-- With `0 ≤ l ≤ r ≤ n-1` all three reads of the body are inside the vector and the body
reduces to its comparisons. -/
theorem searchStep_eq (a : List Int) (t l r : Int) (h0 : 0 ≤ l) (hlr : l ≤ r)
    (hr : r < a.length) :
    searchStep a t l r =
      if val a (mid l r) = t then Step.found (mid l r)
      else if val a l ≤ val a (mid l r) then
        (if val a l ≤ t ∧ t < val a (mid l r) then Step.next l (mid l r - 1)
          else Step.next (mid l r + 1) r)
      else if val a (mid l r) < t ∧ t ≤ val a r then Step.next (mid l r + 1) r
      else Step.next l (mid l r - 1) := by
  obtain ⟨hm1, hm2, -⟩ := mid_bounds l r hlr
  unfold searchStep
  simp only [readAt_eq_val a (mid l r) (by omega) (by omega),
    readAt_eq_val a l h0 (by omega), readAt_eq_val a r (by omega) hr]
  by_cases h1 : val a (mid l r) = t
  · simp [h1]
  · by_cases h2 : val a l ≤ val a (mid l r)
    · simp [h1, h2]
    · by_cases h3 : val a (mid l r) < t
      · simp [h1, h2, h3]
      · simp [h1, h2, h3]

/-- Without any assumption on the contents: started inside the vector with enough
budget, the loop ends with `-1` or with an index of the window holding the target. -/
theorem searchLoop_range (a : List Int) (t : Int) :
    ∀ (fuel : Nat) (l r : Int), 0 ≤ l → r < a.length → r - l + 1 ≤ fuel →
      searchLoop a t fuel l r = Outcome.ans (-1) ∨
        ∃ i : Int, l ≤ i ∧ i ≤ r ∧ val a i = t ∧ searchLoop a t fuel l r = Outcome.ans i := by
  intro fuel
  induction fuel with
  | zero =>
    intro l r _ _ hf
    left
    have : ¬ l ≤ r := by omega
    simp [searchLoop, this]
  | succ fuel ih =>
    intro l r h0 hr hf
    by_cases hlr : l ≤ r
    · obtain ⟨hm1, hm2, hm3⟩ := mid_bounds l r hlr
      have hs := searchStep_eq a t l r h0 hlr hr
      simp only [searchLoop, if_pos hlr]
      split_ifs at hs with c1 c2 c3 c4
      · right
        exact ⟨mid l r, hm1, hm2, c1, by rw [hs]⟩
      · rw [hs]
        rcases ih l (mid l r - 1) h0 (by omega) (by push_cast at hf ⊢; omega) with h | ⟨i, h1, h2, h3, h4⟩
        · exact Or.inl h
        · exact Or.inr ⟨i, h1, by omega, h3, h4⟩
      · rw [hs]
        rcases ih (mid l r + 1) r (by omega) hr (by push_cast at hf ⊢; omega) with h | ⟨i, h1, h2, h3, h4⟩
        · exact Or.inl h
        · exact Or.inr ⟨i, by omega, h2, h3, h4⟩
      · rw [hs]
        rcases ih (mid l r + 1) r (by omega) hr (by push_cast at hf ⊢; omega) with h | ⟨i, h1, h2, h3, h4⟩
        · exact Or.inl h
        · exact Or.inr ⟨i, by omega, h2, h3, h4⟩
      · rw [hs]
        rcases ih l (mid l r - 1) h0 (by omega) (by push_cast at hf ⊢; omega) with h | ⟨i, h1, h2, h3, h4⟩
        · exact Or.inl h
        · exact Or.inr ⟨i, h1, by omega, h3, h4⟩
    · left
      simp [searchLoop, hlr]

/-- On a rotated ascending vector, the half chosen by the body contains the index of the
target whenever the window does. -/
theorem rot_step (f : Int → Int) (n p l r m i t : Int)
    (H1 : ∀ j k, 0 ≤ j → j < k → k < p → f j < f k)
    (H2 : ∀ j k, 0 ≤ j → p ≤ j → j < k → k < n → f j < f k)
    (H3 : ∀ j k, 0 ≤ j → j < p → p ≤ k → k < n → f k < f j)
    (h0 : 0 ≤ l) (hlm : l ≤ m) (hmr : m ≤ r) (hr : r < n) (hli : l ≤ i) (hir : i ≤ r)
    (hi : f i = t) (hm : f m ≠ t) :
    (f l ≤ f m → ((f l ≤ t ∧ t < f m) → i ≤ m - 1) ∧ (¬ (f l ≤ t ∧ t < f m) → m + 1 ≤ i)) ∧
    (¬ f l ≤ f m → ((f m < t ∧ t ≤ f r) → m + 1 ≤ i) ∧ (¬ (f m < t ∧ t ≤ f r) → i ≤ m - 1)) := by
  subst hi
  have hne : i ≠ m := by
    rintro rfl
    exact hm rfl
  have e1 : l = i → f l = f i := fun h => by rw [h]
  have e2 : i = r → f i = f r := fun h => by rw [h]
  have e3 : l = m → f l = f m := fun h => by rw [h]
  rcases lt_or_gt_of_ne hne with him | him
  · -- the target sits left of `m`
    have b1 : i < p → f i < f m ∨ p ≤ m := fun h => by
      by_cases hmp : m < p
      · exact Or.inl (H1 i m (by omega) him hmp)
      · exact Or.inr (by omega)
    have b2 : p ≤ i → f i < f m := fun h => H2 i m (by omega) h him (by omega)
    have b3 : l < i → i < p → f l < f i := fun h h2 => H1 l i h0 h h2
    have b4 : l < i → p ≤ l → f l < f i := fun h h2 => H2 l i h0 h2 h (by omega)
    have b5 : l < p → p ≤ m → f m < f l := fun h h2 => H3 l m h0 h h2 (by omega)
    have b6 : i < p → p ≤ r → f r < f i := fun h h2 => H3 i r (by omega) h h2 hr
    by_cases c1 : i < p <;> by_cases c2 : l < p <;> by_cases c3 : m < p <;>
      by_cases c4 : l < i <;> omega
  · -- the target sits right of `m`
    have b1 : i < p → f m < f i := fun h => H1 m i (by omega) him h
    have b2 : p ≤ m → f m < f i := fun h => H2 m i (by omega) h him (by omega)
    have b3 : l < p → p ≤ i → f i < f l := fun h h2 => H3 l i h0 h h2 (by omega)
    have b4 : i < r → p ≤ i → f i < f r := fun h h2 => H2 i r (by omega) h2 h hr
    have b5 : l < m → m < p → f l < f m := fun h h2 => H1 l m h0 h h2
    have b6 : l < m → p ≤ l → f l < f m := fun h h2 => H2 l m h0 h2 h (by omega)
    by_cases c1 : i < p <;> by_cases c2 : l < p <;> by_cases c3 : m < p <;>
      by_cases c4 : i < r <;> omega

/-- On a rotated ascending vector the loop returns the index of the target whenever that
index lies in the window it is started with. -/
theorem searchLoop_found (a : List Int) (t i : Int) (hrot : RotAsc (val a) a.length)
    (hi : val a i = t) :
    ∀ (fuel : Nat) (l r : Int), 0 ≤ l → r < a.length → r - l + 1 ≤ fuel → l ≤ i → i ≤ r →
      searchLoop a t fuel l r = Outcome.ans i := by
  obtain ⟨p, H1, H2, H3⟩ := hrot
  intro fuel
  induction fuel with
  | zero =>
    intro l r _ _ hf hli hir
    omega
  | succ fuel ih =>
    intro l r h0 hr hf hli hir
    have hlr : l ≤ r := by omega
    obtain ⟨hm1, hm2, hm3⟩ := mid_bounds l r hlr
    have hs := searchStep_eq a t l r h0 hlr hr
    simp only [searchLoop, if_pos hlr]
    by_cases c1 : val a (mid l r) = t
    · rw [if_pos c1] at hs
      rw [hs]
      -- both `i` and `mid l r` hold the target: they coincide
      have hsame : mid l r = i := by
        by_contra hne
        have hv : val a i = val a (mid l r) := by rw [hi, c1]
        have b1 := H1 i (mid l r)
        have b2 := H1 (mid l r) i
        have b3 := H2 i (mid l r)
        have b4 := H2 (mid l r) i
        have b5 := H3 i (mid l r)
        have b6 := H3 (mid l r) i
        by_cases d1 : i < p <;> by_cases d2 : mid l r < p <;> by_cases d3 : i < mid l r <;> omega
      rw [hsame]
    · rw [if_neg c1] at hs
      obtain ⟨hL, hR⟩ := rot_step (val a) a.length p l r (mid l r) i t H1 H2 H3 h0 hm1 hm2 hr
        hli hir hi c1
      split_ifs at hs with c2 c3 c4
      · rw [hs]
        exact ih l (mid l r - 1) h0 (by omega) (by push_cast at hf ⊢; omega) hli ((hL c2).1 c3)
      · rw [hs]
        exact ih (mid l r + 1) r (by omega) hr (by push_cast at hf ⊢; omega) ((hL c2).2 c3) hir
      · rw [hs]
        exact ih (mid l r + 1) r (by omega) hr (by push_cast at hf ⊢; omega) ((hR c2).1 c4) hir
      · rw [hs]
        exact ih l (mid l r - 1) h0 (by omega) (by push_cast at hf ⊢; omega) hli ((hR c2).2 c4)

theorem sorted_getD (B : List Int) (hB : B.Sorted (· < ·)) (x y : Nat) (hxy : x < y)
    (hy : y < B.length) : B.getD x 0 < B.getD y 0 := by
  have hx : x < B.length := by omega
  have h := (List.pairwise_iff_getElem.1 hB) x y hx hy hxy
  simpa [List.getD, List.getElem?_eq_getElem hx, List.getElem?_eq_getElem hy] using h

theorem val_rotate (B : List Int) (k : Nat) (j : Int) (h0 : 0 ≤ j) (hj : j < B.length) :
    val (B.rotate k) j = B.getD ((j.toNat + k) % B.length) 0 := by
  have h2 : j.toNat < B.length := by omega
  simp [val, List.getD, List.getElem?_rotate h2]

theorem idx_lo (j k len : Nat) (h : j + k % len < len) : (j + k) % len = j + k % len := by
  rw [← Nat.add_mod_mod, Nat.mod_eq_of_lt h]

theorem idx_hi (j k len : Nat) (hj : j < len) (h : len ≤ j + k % len) :
    (j + k) % len = j + k % len - len := by
  have hk : k % len < len := Nat.mod_lt _ (by omega)
  rw [← Nat.add_mod_mod, Nat.mod_eq_sub_mod h, Nat.mod_eq_of_lt (by omega)]

/-- A rotation of a strictly ascending list has the two-run shape `RotAsc`. -/
theorem rotAsc_rotate (B : List Int) (k : Nat) (hB : B.Sorted (· < ·)) :
    RotAsc (val (B.rotate k)) (B.rotate k).length := by
  rw [List.length_rotate]
  refine ⟨(B.length : Int) - ((k % B.length : Nat) : Int), ?_, ?_, ?_⟩
  · intro j x hj hjx hx
    rw [val_rotate B k j hj (by omega), val_rotate B k x (by omega) (by omega),
      idx_lo j.toNat k B.length (by omega), idx_lo x.toNat k B.length (by omega)]
    exact sorted_getD B hB _ _ (by omega) (by omega)
  · intro j x hj0 hj hjx hx
    have hk : k % B.length < B.length := Nat.mod_lt _ (by omega)
    rw [val_rotate B k j (by omega) (by omega), val_rotate B k x (by omega) (by omega),
      idx_hi j.toNat k B.length (by omega) (by omega),
      idx_hi x.toNat k B.length (by omega) (by omega)]
    exact sorted_getD B hB _ _ (by omega) (by omega)
  · intro j x hj hjp hpx hx
    have hk : k % B.length < B.length := Nat.mod_lt _ (by omega)
    rw [val_rotate B k j hj (by omega), val_rotate B k x (by omega) (by omega),
      idx_lo j.toNat k B.length (by omega), idx_hi x.toNat k B.length (by omega) (by omega)]
    exact sorted_getD B hB _ _ (by omega) (by omega)

theorem getElem?_eq_val (a : List Int) (i : Nat) (h : i < a.length) :
    a[i]? = some (val a (i : Int)) := by
  simp [val, List.getD, List.getElem?_eq_getElem h]

/-- Every pair `(l, r)` reached by the loop satisfies `0 ≤ l` and `r ≤ n - 1`. -/
theorem reach_bounds (a : List Int) (t : Int) (l r : Int) (h : Reach a t l r) :
    0 ≤ l ∧ r < a.length := by
  induction h with
  | init => omega
  | step hprev hlr hstep ih =>
    rename_i l1 r1 l2 r2
    obtain ⟨h0, hr⟩ := ih
    obtain ⟨hm1, hm2, -⟩ := mid_bounds l1 r1 hlr
    rw [searchStep_eq a t l1 r1 h0 hlr hr] at hstep
    split_ifs at hstep <;> simp at hstep <;> omega

/-- C1 (found property, rotation invariance): if `S` is the rotation by `k` of a strictly
ascending list `B`, then for every index `i < length S` the search for `S[i]` prints
exactly `i`, the index within `S`. -/
theorem locate_found (S B : List Int) (k i : Nat) (hB : B.Sorted (· < ·))
    (hS : S = B.rotate k) (hi : i < S.length) :
    locate S (S.get ⟨i, hi⟩) = Outcome.ans (i : Int) := by
  have hrot : RotAsc (val S) S.length := by
    rw [hS]
    exact rotAsc_rotate B k hB
  have hv : val S (i : Int) = S.get ⟨i, hi⟩ := by
    have := getElem?_eq_val S i hi
    rw [List.getElem?_eq_getElem hi] at this
    simpa using this.symm
  exact searchLoop_found S _ (i : Int) hrot hv S.length 0 ((S.length : Int) - 1)
    (by omega) (by omega) (by omega) (by omega) (by omega)

theorem locate_found_witness :
    [0, 1, 2, 4, 5, 6, 7].Sorted (· < ·) ∧
      [4, 5, 6, 7, 0, 1, 2] = [0, 1, 2, 4, 5, 6, 7].rotate 3 ∧
      locate [4, 5, 6, 7, 0, 1, 2] 0 = Outcome.ans 4 :=
  ⟨by decide, by decide,
    locate_found [4, 5, 6, 7, 0, 1, 2] [0, 1, 2, 4, 5, 6, 7] 3 4 (by decide) (by decide)
      (by decide)⟩

/-- C3 (result range, no precondition): for every vector `S` and target `t` the printed
`ans` is `-1` or an index `i` with `0 ≤ i ≤ n - 1` and `S[i] = t`. -/
theorem locate_range (S : List Int) (t : Int) :
    locate S t = Outcome.ans (-1) ∨
      ∃ i : Nat, i < S.length ∧ S[i]? = some t ∧ locate S t = Outcome.ans (i : Int) := by
  rcases searchLoop_range S t S.length 0 ((S.length : Int) - 1) (by omega) (by omega)
    (by omega) with h | ⟨i, h1, h2, h3, h4⟩
  · exact Or.inl h
  · right
    refine ⟨i.toNat, by omega, ?_, ?_⟩
    · rw [getElem?_eq_val S i.toNat (by omega), Int.toNat_of_nonneg h1, h3]
    · rw [Int.toNat_of_nonneg h1]
      exact h4

/-- C2 (absence property): if `S` is a rotation of a strictly ascending list and `y`
occurs at no index of `S`, the search for `y` prints `-1`. -/
theorem locate_absent (S B : List Int) (k : Nat) (y : Int) (_hB : B.Sorted (· < ·))
    (_hS : S = B.rotate k) (hy : y ∉ S) : locate S y = Outcome.ans (-1) := by
  rcases searchLoop_range S y S.length 0 ((S.length : Int) - 1) (by omega) (by omega)
    (by omega) with h | ⟨i, h1, h2, h3, -⟩
  · exact h
  · exfalso
    apply hy
    have h5 := getElem?_eq_val S i.toNat (by omega)
    rw [Int.toNat_of_nonneg h1, h3] at h5
    exact List.mem_iff_getElem?.2 ⟨_, h5⟩

theorem locate_absent_witness :
    [0, 1, 2, 4, 5, 6, 7].Sorted (· < ·) ∧
      [4, 5, 6, 7, 0, 1, 2] = [0, 1, 2, 4, 5, 6, 7].rotate 3 ∧
      (3 : Int) ∉ [4, 5, 6, 7, 0, 1, 2] ∧
      locate [4, 5, 6, 7, 0, 1, 2] 3 = Outcome.ans (-1) :=
  ⟨by decide, by decide, by decide,
    locate_absent [4, 5, 6, 7, 0, 1, 2] [0, 1, 2, 4, 5, 6, 7] 3 3 (by decide) (by decide)
      (by decide)⟩

/-- C4 (empty input): on the empty vector the search prints `-1` for every target; the
loop condition `0 ≤ -1` fails at once, so the body never runs and nothing is read. -/
theorem locate_empty (t : Int) :
    locate [] t = Outcome.ans (-1) ∧ ¬ ((0 : Int) ≤ (([] : List Int).length : Int) - 1) := by
  constructor
  · simp [locate, searchLoop]
  · simp

/-- C5 (single element): on `[v]` the search prints `0` for the target `v` and `-1` for
every target `w ≠ v`. -/
theorem locate_singleton (v w : Int) :
    locate [v] v = Outcome.ans 0 ∧ (w ≠ v → locate [v] w = Outcome.ans (-1)) := by
  constructor
  · simp [locate, searchLoop, searchStep, mid, readAt]
  · intro h
    have h2 : ¬ v = w := fun e => h e.symm
    have h3 : ¬ (v ≤ w ∧ w < v) := by omega
    simp [locate, searchLoop, searchStep, mid, readAt, h2, h3]

theorem locate_singleton_witness :
    locate [7] 7 = Outcome.ans 0 ∧ locate [7] 3 = Outcome.ans (-1) :=
  ⟨(locate_singleton 7 3).1, (locate_singleton 7 3).2 (by decide)⟩

/-- C6 (no failure): for every vector `S` and target `t`, with or without the rotated
ascending precondition, the search never reads outside the vector: its result is not
`fault`, and whenever the body is entered with a reached pair `(l, r)` one has
`0 ≤ l ≤ m ≤ r ≤ n - 1` for `m = l + (r - l) / 2`, and the body does not fault. -/
theorem locate_no_fault (S : List Int) (t : Int) :
    locate S t ≠ Outcome.fault ∧
      ∀ l r : Int, Reach S t l r → l ≤ r →
        0 ≤ l ∧ l ≤ mid l r ∧ mid l r ≤ r ∧ r ≤ (S.length : Int) - 1 ∧
          (readAt S l).isSome ∧ (readAt S (mid l r)).isSome ∧ (readAt S r).isSome ∧
          searchStep S t l r ≠ Step.fault := by
  constructor
  · rcases searchLoop_range S t S.length 0 ((S.length : Int) - 1) (by omega) (by omega)
      (by omega) with h | ⟨i, -, -, -, h⟩ <;> rw [locate, h] <;> simp
  · intro l r hreach hlr
    obtain ⟨h0, hr⟩ := reach_bounds S t l r hreach
    obtain ⟨hm1, hm2, -⟩ := mid_bounds l r hlr
    refine ⟨h0, hm1, hm2, by omega, ?_, ?_, ?_, ?_⟩
    · simp [readAt_eq_val S l h0 (by omega)]
    · simp [readAt_eq_val S (mid l r) (by omega) (by omega)]
    · simp [readAt_eq_val S r (by omega) hr]
    · rw [searchStep_eq S t l r h0 hlr hr]
      split_ifs <;> simp

theorem locate_no_fault_witness :
    Reach [5, 1, 3] 3 0 2 ∧ (0 : Int) ≤ 2 ∧ searchStep [5, 1, 3] 3 0 2 ≠ Step.fault :=
  ⟨Reach.init, by decide,
    ((locate_no_fault [5, 1, 3] 3).2 0 2 Reach.init (by decide)).2.2.2.2.2.2.2⟩

/-! ## Theorems: maximum subarray sum -/

theorem wrap32_id (x : Int) (h1 : -2147483648 ≤ x) (h2 : x < 2147483648) : wrap32 x = x := by
  unfold wrap32
  omega

theorem suffix_snoc (s P : List Int) (y : Int) (hs : s ≠ []) (h : s <:+ P ++ [y]) :
    s = [y] ∨ ∃ s0, s0 ≠ [] ∧ s0 <:+ P ∧ s = s0 ++ [y] := by
  obtain ⟨t, ht⟩ := h
  rcases List.eq_nil_or_concat s with rfl | ⟨s0, z, rfl⟩
  · exact absurd rfl hs
  · rw [List.concat_eq_append, ← List.append_assoc] at ht
    obtain ⟨h1, h2⟩ := List.append_inj' ht rfl
    have hz : z = y := by simpa using h2
    subst hz
    rw [List.concat_eq_append]
    by_cases h0 : s0 = []
    · left
      rw [h0]
      rfl
    · right
      exact ⟨s0, h0, ⟨t, h1⟩, rfl⟩

theorem infix_snoc (s P : List Int) (y : Int) (h : s <:+: P ++ [y]) :
    s <:+: P ∨ s <:+ P ++ [y] := by
  obtain ⟨pre, post, hp⟩ := h
  rcases List.eq_nil_or_concat post with rfl | ⟨post0, z, rfl⟩
  · right
    exact ⟨pre, by simpa using hp⟩
  · left
    rw [List.concat_eq_append, ← List.append_assoc] at hp
    obtain ⟨h1, -⟩ := List.append_inj' hp rfl
    exact ⟨pre, post0, h1⟩

/-- Invariant of the loop of `maxSubArray`, as long as no addition overflows: with `P` the
elements consumed so far, `cur` is the largest sum of a non-empty suffix of `P` and `best`
the largest sum of a non-empty contiguous block of `P`; at the end `best` is the largest
block sum of the whole list. -/
theorem maxSubLoop_spec : ∀ (R P : List Int) (cur best : Int), maxSubNoOverflow R cur →
    (∃ s, s ≠ [] ∧ s <:+ P ∧ s.sum = cur) → (∀ s, s ≠ [] → s <:+ P → s.sum ≤ cur) →
    (∃ s, s ≠ [] ∧ s <:+: P ∧ s.sum = best) → (∀ s, s ≠ [] → s <:+: P → s.sum ≤ best) →
    (∃ s, s ≠ [] ∧ s <:+: P ++ R ∧ s.sum = maxSubLoop R cur best) ∧
      (∀ s, s ≠ [] → s <:+: P ++ R → s.sum ≤ maxSubLoop R cur best) := by
  intro R
  induction R with
  | nil =>
    intro P cur best _ _ _ h3 h4
    simpa [maxSubLoop] using And.intro h3 h4
  | cons y ys ih =>
    intro P cur best hno h1 h2 h3 h4
    have hP : P ++ y :: ys = (P ++ [y]) ++ ys := by simp
    rw [hP]
    obtain ⟨hin, hno2⟩ := hno
    have hw : wrap32 (cur + y) = cur + y := by
      unfold inInt32 at hin
      exact wrap32_id _ (by omega) (by omega)
    rw [hw] at hno2
    simp only [maxSubLoop, hw]
    obtain ⟨sc, hsc0, hsc1, hsc2⟩ := h1
    obtain ⟨sb, hsb0, hsb1, hsb2⟩ := h3
    have hcur1 : ∃ s, s ≠ [] ∧ s <:+ P ++ [y] ∧ s.sum = max y (cur + y) := by
      rcases le_total y (cur + y) with hle | hle
      · refine ⟨sc ++ [y], by simp, ?_, ?_⟩
        · obtain ⟨t, ht⟩ := hsc1
          exact ⟨t, by rw [← List.append_assoc, ht]⟩
        · rw [max_eq_right hle]
          simp [hsc2]
      · refine ⟨[y], by simp, ⟨P, rfl⟩, ?_⟩
        rw [max_eq_left hle]
        simp
    have hcur2 : ∀ s, s ≠ [] → s <:+ P ++ [y] → s.sum ≤ max y (cur + y) := by
      intro s hs0 hs1
      rcases suffix_snoc s P y hs0 hs1 with rfl | ⟨s0, h0, h5, rfl⟩
      · simp
      · have := h2 s0 h0 h5
        have h6 : (s0 ++ [y]).sum = s0.sum + y := by simp
        rw [h6]
        exact le_trans (by omega) (le_max_right _ _)
    apply ih (P ++ [y]) _ _ hno2 hcur1 hcur2
    · rcases le_total best (max y (cur + y)) with hle | hle
      · obtain ⟨s, hs0, hs1, hs2⟩ := hcur1
        refine ⟨s, hs0, ?_, ?_⟩
        · obtain ⟨t, ht⟩ := hs1
          exact ⟨t, [], by simpa using ht⟩
        · rw [max_eq_right hle]
          exact hs2
      · refine ⟨sb, hsb0, ?_, ?_⟩
        · obtain ⟨u, w, huw⟩ := hsb1
          exact ⟨u, w ++ [y], by rw [← List.append_assoc, huw]⟩
        · rw [max_eq_left hle]
          exact hsb2
    · intro s hs0 hs1
      rcases infix_snoc s P y hs1 with h5 | h5
      · exact le_trans (h4 s hs0 h5) (le_max_left _ _)
      · exact le_trans (hcur2 s hs0 h5) (le_max_right _ _)

theorem sum_nonpos_of_forall (s : List Int) (h : ∀ x ∈ s, x ≤ 0) : s.sum ≤ 0 := by
  induction s with
  | nil => simp
  | cons z s2 ih =>
    have h1 : z ≤ 0 := h z (by simp)
    have h2 : s2.sum ≤ 0 := ih (fun x hx => h x (by simp [hx]))
    simp only [List.sum_cons]
    omega

theorem infix_singleton (s : List Int) (x : Int) (hs : s ≠ []) (h : s <:+: [x]) : s = [x] := by
  obtain ⟨u, w, huw⟩ := h
  have hlen := congrArg List.length huw
  simp only [List.length_append, List.length_singleton] at hlen
  have hpos : 0 < s.length := List.length_pos.2 hs
  have hu : u = [] := List.length_eq_zero.1 (by omega)
  have hw : w = [] := List.length_eq_zero.1 (by omega)
  subst hu hw
  simpa using huw

/-- Without overflow, the value returned by `maxSubArray` is the sum of some non-empty
contiguous block and bounds the sum of every non-empty contiguous block. -/
theorem maxSubArray_infix (nums : List Int) (h : nums ≠ []) (hno : maxSubArrayNoOverflow nums) :
    ∃ v, maxSubArray nums = some v ∧ (∃ s, s ≠ [] ∧ s <:+: nums ∧ s.sum = v) ∧
      (∀ s, s ≠ [] → s <:+: nums → s.sum ≤ v) := by
  cases nums with
  | nil => exact absurd rfl h
  | cons x rest =>
    have h1 : ∀ s : List Int, s ≠ [] → s <:+: [x] → s.sum ≤ x := by
      intro s hs hi
      rw [infix_singleton s x hs hi]
      simp
    have key := maxSubLoop_spec rest [x] x x hno ⟨[x], by simp, List.suffix_refl _, by simp⟩
      (fun s hs hi => h1 s hs hi.isInfix) ⟨[x], by simp, List.infix_refl _, by simp⟩ h1
    exact ⟨maxSubLoop rest x x, rfl, by simpa using key.1, by simpa using key.2⟩

theorem seg_of_infix (nums s : List Int) (hs : s ≠ []) (h : s <:+: nums) :
    ∃ i j, i ≤ j ∧ j < nums.length ∧ (nums.drop i).take (j + 1 - i) = s := by
  obtain ⟨u, w, huw⟩ := h
  have hpos : 0 < s.length := List.length_pos.2 hs
  refine ⟨u.length, u.length + s.length - 1, by omega, ?_, ?_⟩
  · rw [← huw]
    simp only [List.length_append]
    omega
  · have e : u.length + s.length - 1 + 1 - u.length = s.length := by omega
    rw [e, ← huw, List.append_assoc, List.drop_left, List.take_left]

theorem infix_of_seg (nums : List Int) (i j : Nat) (hij : i ≤ j) (hj : j < nums.length) :
    (nums.drop i).take (j + 1 - i) ≠ [] ∧ (nums.drop i).take (j + 1 - i) <:+: nums := by
  constructor
  · intro h0
    have := congrArg List.length h0
    simp only [List.length_take, List.length_drop, List.length_nil] at this
    omega
  · exact (List.take_prefix _ _).isInfix.trans (List.drop_suffix _ _).isInfix

/-- C7 (maximum subarray sum): for every non-empty list `nums` on which no addition of the
loop overflows 32 bits (so that the arithmetic is that of the mathematical integers),
`maxSubArray nums` returns a value `v` that is the sum `nums[i] + ... + nums[j]` for some
`0 ≤ i ≤ j < length nums` and is at least every such sum; in particular, when all
elements are negative, `v` is an element of the list and the largest one (not `0`). -/
theorem maxSubArray_spec (nums : List Int) (h : nums ≠ [])
    (hno : maxSubArrayNoOverflow nums) :
    ∃ v, maxSubArray nums = some v ∧
      (∃ i j, i ≤ j ∧ j < nums.length ∧ segSum nums i j = v) ∧
      (∀ i j, i ≤ j → j < nums.length → segSum nums i j ≤ v) ∧
      ((∀ x ∈ nums, x < 0) → v ∈ nums ∧ (∀ x ∈ nums, x ≤ v) ∧ v < 0) := by
  obtain ⟨v, hv, ⟨s, hs0, hs1, hs2⟩, hub⟩ := maxSubArray_infix nums h hno
  refine ⟨v, hv, ?_, ?_, ?_⟩
  · obtain ⟨i, j, hij, hj, e⟩ := seg_of_infix nums s hs0 hs1
    exact ⟨i, j, hij, hj, by rw [segSum, e, hs2]⟩
  · intro i j hij hj
    obtain ⟨e0, e1⟩ := infix_of_seg nums i j hij hj
    exact hub _ e0 e1
  · intro hneg
    have hle : ∀ x ∈ nums, x ≤ v := by
      intro x hx
      obtain ⟨u, w, huw⟩ := List.append_of_mem hx
      have := hub [x] (by simp) ⟨u, w, by rw [huw]; simp⟩
      simpa using this
    have hmem : v ∈ nums := by
      cases s with
      | nil => exact absurd rfl hs0
      | cons z s2 =>
        have hsub : ∀ x ∈ z :: s2, x ∈ nums := fun x hx => hs1.subset hx
        have hz : z ∈ nums := hsub z (by simp)
        have h2 : s2.sum ≤ 0 :=
          sum_nonpos_of_forall s2 (fun x hx => le_of_lt (hneg x (hsub x (by simp [hx]))))
        have h3 : z + s2.sum = v := by simpa using hs2
        have h4 := hle z hz
        have h5 : v = z := by omega
        rw [h5]
        exact hz
    exact ⟨hmem, hle, hneg v hmem⟩

theorem maxSubArray_spec_witness :
    ([-2, 1, -3, 4, -1, 2, 1, -5, 4] : List Int) ≠ [] ∧
      maxSubArrayNoOverflow [-2, 1, -3, 4, -1, 2, 1, -5, 4] ∧
      maxSubArray [-2, 1, -3, 4, -1, 2, 1, -5, 4] = some 6 ∧
      ∃ v, maxSubArray [-2, 1, -3, 4, -1, 2, 1, -5, 4] = some v ∧
        (∃ i j, i ≤ j ∧ j < 9 ∧ segSum [-2, 1, -3, 4, -1, 2, 1, -5, 4] i j = v) ∧
        (∀ i j, i ≤ j → j < 9 → segSum [-2, 1, -3, 4, -1, 2, 1, -5, 4] i j ≤ v) ∧
        ((∀ x ∈ ([-2, 1, -3, 4, -1, 2, 1, -5, 4] : List Int), x < 0) →
          v ∈ ([-2, 1, -3, 4, -1, 2, 1, -5, 4] : List Int) ∧
          (∀ x ∈ ([-2, 1, -3, 4, -1, 2, 1, -5, 4] : List Int), x ≤ v) ∧ v < 0) :=
  ⟨by decide, by decide, by decide,
    maxSubArray_spec [-2, 1, -3, 4, -1, 2, 1, -5, 4] (by decide) (by decide)⟩

/-- Outside the no-overflow hypothesis: on `[-2147483648, -1]` the addition
`cur + nums[1]` overflows and the function returns `2147483647`, which is no block sum. -/
theorem maxSubArray_wraps :
    ¬ maxSubArrayNoOverflow [-2147483648, -1] ∧
      maxSubArray [-2147483648, -1] = some 2147483647 := by
  decide

/-! ## Theorems: interval merging -/

/-- Any sorted rearrangement of the input is the list `sortIntervals` returns, so the
model does not depend on the sorting algorithm. -/
theorem sortIntervals_unique (intervals out : List (Int × Int)) (hp : out.Perm intervals)
    (hs : out.Sorted ivLe) : out = sortIntervals intervals :=
  List.eq_of_perm_of_sorted (hp.trans (List.perm_insertionSort ivLe intervals).symm) hs
    (List.sorted_insertionSort ivLe intervals)

theorem covers_append (l1 l2 : List (Int × Int)) (x : Int) :
    covers (l1 ++ l2) x ↔ covers l1 x ∨ covers l2 x := by
  unfold covers
  constructor
  · rintro ⟨iv, hmem, h⟩
    rcases List.mem_append.1 hmem with h1 | h1
    · exact Or.inl ⟨iv, h1, h⟩
    · exact Or.inr ⟨iv, h1, h⟩
  · rintro (⟨iv, hmem, h⟩ | ⟨iv, hmem, h⟩)
    · exact ⟨iv, List.mem_append.2 (Or.inl hmem), h⟩
    · exact ⟨iv, List.mem_append.2 (Or.inr hmem), h⟩

theorem covers_cons (iv : Int × Int) (l : List (Int × Int)) (x : Int) :
    covers (iv :: l) x ↔ (iv.1 ≤ x ∧ x ≤ iv.2) ∨ covers l x := by
  unfold covers
  simp

theorem covers_nil (x : Int) : ¬ covers [] x := by
  unfold covers
  simp

/-- The loop keeps the covered set: what `res`, `back` and the remaining sorted intervals
cover together is what the result covers. -/
theorem mergeLoop_covers (x : Int) :
    ∀ (rest res : List (Int × Int)) (back : Int × Int),
      rest.Pairwise (fun a b => a.1 ≤ b.1) → (∀ iv ∈ rest, back.1 ≤ iv.1) →
      (covers (mergeLoop res back rest) x ↔
        covers res x ∨ (back.1 ≤ x ∧ x ≤ back.2) ∨ covers rest x) := by
  intro rest
  induction rest with
  | nil =>
    intro res back _ _
    simp [mergeLoop, covers_append, covers_cons, covers_nil]
  | cons iv rest ih =>
    intro res back hp hb
    have hp2 := List.pairwise_cons.1 hp
    have hbi : back.1 ≤ iv.1 := hb iv (by simp)
    simp only [mergeLoop]
    split_ifs with c
    · rw [ih res (back.1, max back.2 iv.2) hp2.2 (fun j hj => hb j (by simp [hj])),
        covers_cons]
      have key : (back.1 ≤ x ∧ x ≤ max back.2 iv.2) ↔
          ((back.1 ≤ x ∧ x ≤ back.2) ∨ (iv.1 ≤ x ∧ x ≤ iv.2)) := by
        rw [le_max_iff]
        constructor
        · rintro ⟨h1, h2 | h2⟩
          · exact Or.inl ⟨h1, h2⟩
          · by_cases h3 : x ≤ back.2
            · exact Or.inl ⟨h1, h3⟩
            · exact Or.inr ⟨by omega, h2⟩
        · rintro (⟨h1, h2⟩ | ⟨h1, h2⟩)
          · exact ⟨h1, Or.inl h2⟩
          · exact ⟨by omega, Or.inr h2⟩
      simp only [key]
      tauto
    · rw [ih (res ++ [back]) iv hp2.2 (fun j hj => hp2.1 j hj), covers_append, covers_cons,
        covers_cons]
      have := covers_nil x
      tauto

/-- C8 (interval merging preserves coverage): for every list of intervals `[s, e]` with
`s ≤ e`, in any order, an integer `x` lies in some interval returned by `mergeIntervals`
if and only if it lies in some input interval; and `mergeIntervals []` is `[]`. -/
theorem mergeIntervals_covers (intervals : List (Int × Int))
    (_hvalid : ∀ iv ∈ intervals, iv.1 ≤ iv.2) :
    (∀ x : Int, covers (mergeIntervals intervals) x ↔ covers intervals x) ∧
      mergeIntervals [] = [] := by
  refine ⟨?_, rfl⟩
  intro x
  cases hint : intervals with
  | nil => simp [mergeIntervals]
  | cons i0 irest =>
    have hperm : (sortIntervals intervals).Perm intervals := List.perm_insertionSort ivLe _
    have hsorted : (sortIntervals intervals).Sorted ivLe := List.sorted_insertionSort ivLe _
    have hcov : covers (sortIntervals intervals) x ↔ covers intervals x := by
      unfold covers
      constructor
      · rintro ⟨iv, hmem, h⟩
        exact ⟨iv, hperm.mem_iff.1 hmem, h⟩
      · rintro ⟨iv, hmem, h⟩
        exact ⟨iv, hperm.mem_iff.2 hmem, h⟩
    rw [← hint, ← hcov]
    have hdef : mergeIntervals intervals =
        match sortIntervals intervals with
        | [] => []
        | first :: rest => mergeLoop [] first rest := by
      rw [hint]
      rfl
    rw [hdef]
    cases hso : sortIntervals intervals with
    | nil => simp
    | cons first rest =>
      rw [hso] at hsorted
      have hstart : (first :: rest).Pairwise (fun a b => a.1 ≤ b.1) :=
        List.Pairwise.imp (fun {a b} (h : ivLe a b) => by unfold ivLe at h; omega) hsorted
      have hp2 := List.pairwise_cons.1 hstart
      simp only []
      rw [mergeLoop_covers x rest [] first hp2.2 hp2.1, covers_cons]
      have := covers_nil x
      tauto

theorem mergeIntervals_covers_witness :
    (∀ iv ∈ ([(8, 10), (1, 3), (2, 6), (15, 18)] : List (Int × Int)), iv.1 ≤ iv.2) ∧
      mergeIntervals [(8, 10), (1, 3), (2, 6), (15, 18)] = [(1, 6), (8, 10), (15, 18)] ∧
      (covers (mergeIntervals [(8, 10), (1, 3), (2, 6), (15, 18)]) 5 ↔
        covers [(8, 10), (1, 3), (2, 6), (15, 18)] 5) :=
  ⟨by decide, by decide,
    (mergeIntervals_covers [(8, 10), (1, 3), (2, 6), (15, 18)] (by decide)).1 5⟩

/-! ## Theorems: ransom note -/

theorem val_set (a : List Int) (i j v : Int) (hi0 : 0 ≤ i) (hi : i < a.length)
    (hj : 0 ≤ j) : val (a.set i.toNat v) j = if j = i then v else val a j := by
  have h1 : i.toNat < a.length := by omega
  unfold val
  simp only [List.getD_eq_getElem?_getD, List.getElem?_set]
  by_cases h : i.toNat = j.toNat
  · have e : j = i := by omega
    simp [h, e, h1]
    rw [← h]
    simp [h1]
  · have e : ¬ j = i := fun e => h (by rw [e])
    simp [h, e]

theorem letterIndex_inj (c d : Char) (h : letterIndex c = letterIndex d) : c = d := by
  unfold letterIndex at h
  apply Char.ext
  apply UInt32.ext
  have : c.toNat = d.toNat := by omega
  exact this

theorem letterIndex_range (c : Char) (h : isLower c) :
    0 ≤ letterIndex c ∧ letterIndex c < 26 := by
  unfold isLower at h
  unfold letterIndex
  omega

theorem count_cons_char (d c : Char) (cs : List Char) :
    List.count d (c :: cs) = List.count d cs + if c = d then 1 else 0 := by
  rw [List.count_cons]
  simp

/-- The counting loop adds to every entry of `freq` the number of occurrences of its
letter, as long as no counter leaves the range of `int`. -/
theorem countLoop_spec : ∀ (mag : List Char) (freq : List Int), freq.length = 26 →
    (∀ c ∈ mag, isLower c) →
    (∀ c, isLower c → -2147483648 ≤ val freq (letterIndex c) ∧
      val freq (letterIndex c) + (List.count c mag : Int) < 2147483648) →
    ∃ f2, countLoop mag freq = some f2 ∧ f2.length = 26 ∧
      ∀ c, isLower c → val f2 (letterIndex c) = val freq (letterIndex c) + List.count c mag := by
  intro mag
  induction mag with
  | nil =>
    intro freq hlen _ _
    exact ⟨freq, rfl, hlen, fun c _ => by simp⟩
  | cons c cs ih =>
    intro freq hlen hlow hb
    have hc : isLower c := hlow c (by simp)
    obtain ⟨r0, r1⟩ := letterIndex_range c hc
    have hread := readAt_eq_val freq (letterIndex c) r0 (by rw [hlen]; exact_mod_cast r1)
    have hbc := hb c hc
    rw [count_cons_char] at hbc
    simp only [if_true, Nat.cast_add, Nat.cast_one] at hbc
    have hw : wrap32 (val freq (letterIndex c) + 1) = val freq (letterIndex c) + 1 :=
      wrap32_id _ (by omega) (by omega)
    simp only [countLoop, hread, hw]
    have hset : ∀ d, isLower d →
        val (freq.set (letterIndex c).toNat (val freq (letterIndex c) + 1)) (letterIndex d) =
          if letterIndex d = letterIndex c then val freq (letterIndex c) + 1
          else val freq (letterIndex d) := fun d hd =>
      val_set freq (letterIndex c) (letterIndex d) _ r0 (by rw [hlen]; exact_mod_cast r1)
        (letterIndex_range d hd).1
    obtain ⟨f2, h1, h2, h3⟩ := ih (freq.set (letterIndex c).toNat (val freq (letterIndex c) + 1))
      (by rw [List.length_set]; exact hlen) (fun d hd => hlow d (by simp [hd]))
      (by
        intro d hd
        rw [hset d hd]
        have hbd := hb d hd
        rw [count_cons_char] at hbd
        by_cases e : letterIndex d = letterIndex c
        · have e2 : d = c := letterIndex_inj d c e
          subst e2
          simp only [if_true, Nat.cast_add, Nat.cast_one] at hbd
          simp only [if_true]
          omega
        · have e2 : ¬ c = d := fun h => e (by rw [h])
          simp only [if_neg e2, if_neg e, Nat.add_zero] at hbd ⊢
          exact hbd)
    refine ⟨f2, h1, h2, ?_⟩
    intro d hd
    rw [h3 d hd, hset d hd, count_cons_char]
    by_cases e : letterIndex d = letterIndex c
    · have e2 : d = c := letterIndex_inj d c e
      subst e2
      simp only [if_true, Nat.cast_add, Nat.cast_one]
      omega
    · have e2 : ¬ c = d := fun h => e (by rw [h])
      simp only [if_neg e2, if_neg e, Nat.add_zero]

/-- The checking loop, started with counters in `[0, 2^31)`, returns `true` exactly when
no letter occurs in the note more often than its counter allows. -/
theorem noteLoop_spec : ∀ (note : List Char) (freq : List Int), freq.length = 26 →
    (∀ c ∈ note, isLower c) →
    (∀ c, isLower c → 0 ≤ val freq (letterIndex c) ∧ val freq (letterIndex c) < 2147483648) →
    ∃ b, noteLoop note freq = some b ∧
      (b = true ↔ ∀ c, isLower c → (List.count c note : Int) ≤ val freq (letterIndex c)) := by
  intro note
  induction note with
  | nil =>
    intro freq _ _ hb
    exact ⟨true, rfl, by simpa using fun c hc => (hb c hc).1⟩
  | cons c cs ih =>
    intro freq hlen hlow hb
    have hc : isLower c := hlow c (by simp)
    obtain ⟨r0, r1⟩ := letterIndex_range c hc
    have hread := readAt_eq_val freq (letterIndex c) r0 (by rw [hlen]; exact_mod_cast r1)
    have hbc := hb c hc
    have hw : wrap32 (val freq (letterIndex c) - 1) = val freq (letterIndex c) - 1 :=
      wrap32_id _ (by omega) (by omega)
    simp only [noteLoop, hread, hw]
    by_cases hneg : val freq (letterIndex c) - 1 < 0
    · rw [if_pos hneg]
      refine ⟨false, rfl, ?_⟩
      constructor
      · intro h
        exact absurd h (by simp)
      · intro h
        have h1 := h c hc
        rw [count_cons_char] at h1
        simp only [if_true, Nat.cast_add, Nat.cast_one] at h1
        omega
    · rw [if_neg hneg]
      have hset : ∀ d, isLower d →
          val (freq.set (letterIndex c).toNat (val freq (letterIndex c) - 1)) (letterIndex d) =
            if letterIndex d = letterIndex c then val freq (letterIndex c) - 1
            else val freq (letterIndex d) := fun d hd =>
        val_set freq (letterIndex c) (letterIndex d) _ r0 (by rw [hlen]; exact_mod_cast r1)
          (letterIndex_range d hd).1
      obtain ⟨b, h1, h2⟩ := ih (freq.set (letterIndex c).toNat (val freq (letterIndex c) - 1))
        (by rw [List.length_set]; exact hlen) (fun d hd => hlow d (by simp [hd]))
        (by
          intro d hd
          rw [hset d hd]
          have hbd := hb d hd
          split_ifs <;> omega)
      refine ⟨b, h1, ?_⟩
      rw [h2]
      constructor
      · intro h d hd
        have h3 := h d hd
        rw [hset d hd] at h3
        rw [count_cons_char]
        by_cases e : letterIndex d = letterIndex c
        · have e2 : d = c := letterIndex_inj d c e
          subst e2
          simp only [if_true, Nat.cast_add, Nat.cast_one] at h3 ⊢
          omega
        · have e2 : ¬ c = d := fun h => e (by rw [h])
          simp only [if_neg e2, if_neg e, Nat.add_zero] at h3 ⊢
          exact h3
      · intro h d hd
        have h3 := h d hd
        rw [count_cons_char] at h3
        rw [hset d hd]
        by_cases e : letterIndex d = letterIndex c
        · have e2 : d = c := letterIndex_inj d c e
          subst e2
          simp only [if_true, Nat.cast_add, Nat.cast_one] at h3 ⊢
          omega
        · have e2 : ¬ c = d := fun h => e (by rw [h])
          simp only [if_neg e2, if_neg e, Nat.add_zero] at h3 ⊢
          exact h3

theorem val_replicate_zero (n : Nat) (i : Int) : val (List.replicate n 0) i = 0 := by
  unfold val
  simp only [List.getD_eq_getElem?_getD, List.getElem?_replicate]
  split_ifs <;> simp

/-- C9, amended (ransom note): for all strings `ransomNote` and `magazine` of lowercase
letters in which no letter occurs `2^31` times or more in `magazine`, `canConstruct`
returns, and returns `true` if and only if every letter occurs in `ransomNote` at most as
often as in `magazine`. -/
theorem canConstruct_spec (ransomNote magazine : List Char)
    (hn : ∀ c ∈ ransomNote, isLower c) (hm : ∀ c ∈ magazine, isLower c)
    (hbound : ∀ c, isLower c → List.count c magazine < 2147483648) :
    ∃ b, canConstruct ransomNote magazine = some b ∧
      (b = true ↔ ∀ c, isLower c → List.count c ransomNote ≤ List.count c magazine) := by
  obtain ⟨f2, h1, h2, h3⟩ := countLoop_spec magazine (List.replicate 26 0) (by simp) hm
    (by
      intro c hc
      rw [val_replicate_zero]
      have := hbound c hc
      omega)
  obtain ⟨b, h4, h5⟩ := noteLoop_spec ransomNote f2 h2 hn
    (by
      intro c hc
      rw [h3 c hc, val_replicate_zero]
      have := hbound c hc
      omega)
  refine ⟨b, by simp only [canConstruct, h1, h4], ?_⟩
  rw [h5]
  constructor
  · intro h c hc
    have := h c hc
    rw [h3 c hc, val_replicate_zero] at this
    omega
  · intro h c hc
    have := h c hc
    rw [h3 c hc, val_replicate_zero]
    omega

theorem canConstruct_spec_witness :
    (∀ c ∈ ['a', 'a'], isLower c) ∧ (∀ c ∈ ['a', 'a', 'b'], isLower c) ∧
      (∀ c, isLower c → List.count c ['a', 'a', 'b'] < 2147483648) ∧
      ∃ b, canConstruct ['a', 'a'] ['a', 'a', 'b'] = some b ∧
        (b = true ↔ ∀ c, isLower c → List.count c ['a', 'a'] ≤ List.count c ['a', 'a', 'b']) :=
  have h1 : ∀ c ∈ ['a', 'a'], isLower c := by
    intro c hc
    simp only [List.mem_cons, List.mem_singleton, List.not_mem_nil, or_false, or_self] at hc
    subst hc
    unfold isLower
    decide
  have h2 : ∀ c ∈ ['a', 'a', 'b'], isLower c := by
    intro c hc
    simp only [List.mem_cons, List.mem_singleton, List.not_mem_nil, or_false] at hc
    rcases hc with rfl | rfl | rfl <;> (unfold isLower; decide)
  have h3 : ∀ c, isLower c → List.count c ['a', 'a', 'b'] < 2147483648 := fun c _ =>
    lt_of_le_of_lt (List.count_le_length c _) (by decide)
  ⟨h1, h2, h3, canConstruct_spec ['a', 'a'] ['a', 'a', 'b'] h1 h2 h3⟩

theorem canConstruct_of_count (ransomNote magazine : List Char) (freq : List Int)
    (h : countLoop magazine (List.replicate 26 0) = some freq) :
    canConstruct ransomNote magazine = noteLoop ransomNote freq := by
  unfold canConstruct
  rw [h]

/-- The counting loop on `k` copies of `'a'`: only the first counter moves, by `k`
modulo `2^32`. -/
theorem countLoop_replicate_a : ∀ (k : Nat) (v : Int) (rest : List Int), wrap32 v = v →
    countLoop (List.replicate k 'a') (v :: rest) = some (wrap32 (v + k) :: rest) := by
  intro k
  induction k with
  | zero =>
    intro v rest hv
    simp [countLoop, hv]
  | succ k ih =>
    intro v rest _
    have hidx : letterIndex 'a' = 0 := by decide
    have hread : readAt (v :: rest) 0 = some v := by simp [readAt]
    rw [List.replicate_succ]
    simp only [countLoop, hidx, hread, Int.toNat_zero, List.set_cons_zero]
    rw [ih (wrap32 (v + 1)) rest (by unfold wrap32; omega)]
    congr 2
    unfold wrap32
    push_cast
    omega

/-- C9, counterexample: with `2^31 + 1` copies of `'a'` as magazine and the note `"a"`,
both strings are lowercase and every letter occurs in the note at most as often as in the
magazine, yet the 32-bit counter has wrapped to a negative value and `canConstruct`
returns `false`. -/
theorem canConstruct_counter_wraps :
    (∀ c ∈ ['a'], isLower c) ∧ (∀ c ∈ List.replicate 2147483649 'a', isLower c) ∧
      (∀ c, isLower c → List.count c ['a'] ≤ List.count c (List.replicate 2147483649 'a')) ∧
      canConstruct ['a'] (List.replicate 2147483649 'a') = some false := by
  have ha : isLower 'a' := by unfold isLower; decide
  refine ⟨?_, ?_, ?_, ?_⟩
  · intro c hc
    rw [List.mem_singleton] at hc
    rw [hc]
    exact ha
  · intro c hc
    rw [List.eq_of_mem_replicate hc]
    exact ha
  · intro c _
    rw [List.count_replicate]
    by_cases e : 'a' = c
    · subst e
      simp
    · have : List.count c ['a'] = 0 := List.count_eq_zero.2 (by simpa using fun h => e h.symm)
      rw [this]
      exact Nat.zero_le _
  · have h26 : List.replicate 26 (0 : Int) = 0 :: List.replicate 25 0 := rfl
    have hw0 : wrap32 0 = 0 := by
      unfold wrap32
      norm_num
    have hw : wrap32 ((0 : Int) + ((2147483649 : Nat) : Int)) = -2147483647 := by
      unfold wrap32
      norm_num
    have hcount : countLoop (List.replicate 2147483649 'a') (List.replicate 26 0) =
        some (-2147483647 :: List.replicate 25 0) := by
      rw [h26, ← hw]
      exact countLoop_replicate_a 2147483649 0 _ hw0
    have hidx : letterIndex 'a' = 0 := by decide
    have hread : readAt ((-2147483647 : Int) :: List.replicate 25 0) 0 = some (-2147483647) := by
      simp [readAt]
    have hw2 : wrap32 (-2147483647 - 1) = -2147483648 := by
      unfold wrap32
      norm_num
    rw [canConstruct_of_count _ _ _ hcount]
    simp only [noteLoop, hidx, hread, hw2]
    norm_num

/-! ## Theorems: missing number -/

theorem wrap64_id (x : Int) (h1 : -9223372036854775808 ≤ x) (h2 : x < 9223372036854775808) :
    wrap64 x = x := by
  unfold wrap64
  omega

/-- While the running total stays below `2^63` the accumulator holds the exact sum. -/
theorem sumLoop_eq_sum : ∀ (nums : List Int) (acc : Int), (∀ x ∈ nums, 0 ≤ x) → 0 ≤ acc →
    acc + nums.sum < 9223372036854775808 → sumLoop nums acc = acc + nums.sum := by
  intro nums
  induction nums with
  | nil =>
    intro acc _ _ _
    simp [sumLoop]
  | cons x xs ih =>
    intro acc hpos hacc hlt
    have hx : 0 ≤ x := hpos x (by simp)
    have hxs : 0 ≤ xs.sum := List.sum_nonneg (fun y hy => hpos y (by simp [hy]))
    rw [List.sum_cons] at hlt
    have hw : wrap64 (acc + x) = acc + x := wrap64_id _ (by omega) (by omega)
    simp only [sumLoop, hw]
    rw [ih (acc + x) (fun y hy => hpos y (by simp [hy])) (by omega) (by omega), List.sum_cons]
    omega

/-- A duplicate-free list of `n` naturals, all at most `n`, misses exactly one value of
`0..n`, and together with it sums to `n (n + 1) / 2`. -/
theorem missing_exists (l : List Nat) (n : Nat) (hlen : l.length = n) (hnd : l.Nodup)
    (hle : ∀ x ∈ l, x ≤ n) :
    ∃ m, m ≤ n ∧ m ∉ l ∧ (∀ k, k ≤ n → k ∉ l → k = m) ∧ (l.sum + m) * 2 = n * (n + 1) := by
  have hS : l.toFinset ⊆ Finset.range (n + 1) := by
    intro x hx
    rw [List.mem_toFinset] at hx
    rw [Finset.mem_range]
    have := hle x hx
    omega
  have hcard : l.toFinset.card = n := by rw [List.toFinset_card_of_nodup hnd, hlen]
  have hT : (Finset.range (n + 1) \ l.toFinset).card = 1 := by
    rw [Finset.card_sdiff hS, Finset.card_range, hcard]
    omega
  obtain ⟨m, hm⟩ := Finset.card_eq_one.1 hT
  have hmem : m ∈ Finset.range (n + 1) \ l.toFinset := by rw [hm]; exact Finset.mem_singleton_self m
  rw [Finset.mem_sdiff, Finset.mem_range, List.mem_toFinset] at hmem
  refine ⟨m, by omega, hmem.2, ?_, ?_⟩
  · intro k hk hkl
    have : k ∈ Finset.range (n + 1) \ l.toFinset := by
      rw [Finset.mem_sdiff, Finset.mem_range, List.mem_toFinset]
      exact ⟨by omega, hkl⟩
    rw [hm] at this
    exact Finset.mem_singleton.1 this
  · have hsum := Finset.sum_sdiff (f := fun i : Nat => i) hS
    rw [hm, Finset.sum_singleton, List.sum_toFinset _ hnd, List.map_id'] at hsum
    have hg := Finset.sum_range_id_mul_two (n + 1)
    rw [← hsum] at hg
    rw [Nat.add_comm l.sum m, hg]
    simp [Nat.mul_comm]

theorem sum_map_toNat : ∀ nums : List Int, (∀ x ∈ nums, 0 ≤ x) →
    (((nums.map Int.toNat).sum : Nat) : Int) = nums.sum := by
  intro nums
  induction nums with
  | nil => intro _; simp
  | cons x xs ih =>
    intro h
    have hx : 0 ≤ x := h x (by simp)
    have := ih (fun y hy => h y (by simp [hy]))
    simp only [List.map_cons, List.sum_cons, Nat.cast_add, this, Int.toNat_of_nonneg hx]

theorem missingNumber_of (nums : List Int) (n s : Int) (hn : (nums.length : Int) = n)
    (hs : sumLoop nums 0 = s) :
    missingNumber nums = wrap64 ((wrap64 (wrap64 (1 * n) * wrap32 (n + 1))).tdiv 2 - s) := by
  unfold missingNumber
  simp only [hn, hs]

/-- C10 below the overflow: for every duplicate-free list `nums` of length
`n ≤ 2^31 - 2` with all elements in `0..n`, the printed value is the unique integer of
`0..n` that does not occur in `nums`. -/
theorem missingNumber_spec (nums : List Int) (hnd : nums.Nodup)
    (hrange : ∀ x ∈ nums, 0 ≤ x ∧ x ≤ (nums.length : Int))
    (hn : (nums.length : Int) + 1 < 2147483648) :
    ∃ m : Int, missingNumber nums = m ∧ 0 ≤ m ∧ m ≤ (nums.length : Int) ∧ m ∉ nums ∧
      ∀ k : Int, 0 ≤ k → k ≤ (nums.length : Int) → k ∉ nums → k = m := by
  have hl_nd : (nums.map Int.toNat).Nodup := by
    apply List.Nodup.map_on _ hnd
    intro x hx y hy hxy
    have := (hrange x hx).1
    have := (hrange y hy).1
    omega
  have hl_le : ∀ x ∈ nums.map Int.toNat, x ≤ nums.length := by
    intro x hx
    obtain ⟨y, hy, rfl⟩ := List.mem_map.1 hx
    have := hrange y hy
    omega
  obtain ⟨m, hm1, hm2, hm3, hm4⟩ :=
    missing_exists (nums.map Int.toNat) nums.length (by simp) hl_nd hl_le
  have hsum := sum_map_toNat nums (fun x hx => (hrange x hx).1)
  have hm4i : (nums.sum + (m : Int)) * 2 = (nums.length : Int) * ((nums.length : Int) + 1) := by
    rw [← hsum]
    exact_mod_cast hm4
  have hn0 : (0 : Int) ≤ (nums.length : Int) := Int.ofNat_nonneg _
  have hP : (nums.length : Int) * ((nums.length : Int) + 1) < 4611686018427387904 := by
    nlinarith
  have hP0 : 0 ≤ (nums.length : Int) * ((nums.length : Int) + 1) := by
    nlinarith
  have hS0 : 0 ≤ nums.sum := List.sum_nonneg (fun x hx => (hrange x hx).1)
  have hsl : sumLoop nums 0 = nums.sum := by
    rw [sumLoop_eq_sum nums 0 (fun x hx => (hrange x hx).1) (le_refl 0) (by omega)]
    omega
  refine ⟨(m : Int), ?_, by omega, by omega, ?_, ?_⟩
  · have e1 : wrap64 (1 * (nums.length : Int)) = (nums.length : Int) := by
      rw [Int.one_mul]
      exact wrap64_id _ (by omega) (by omega)
    have e2 : wrap32 ((nums.length : Int) + 1) = (nums.length : Int) + 1 :=
      wrap32_id _ (by omega) (by omega)
    have e3 : wrap64 ((nums.length : Int) * ((nums.length : Int) + 1)) =
        (nums.length : Int) * ((nums.length : Int) + 1) := wrap64_id _ (by omega) (by omega)
    have e4 : ((nums.length : Int) * ((nums.length : Int) + 1)).tdiv 2 = nums.sum + (m : Int) := by
      rw [Int.tdiv_eq_ediv hP0 (by omega)]
      omega
    rw [missingNumber_of nums _ _ rfl hsl, e1, e2, e3, e4]
    have e5 : nums.sum + (m : Int) - nums.sum = (m : Int) := by omega
    rw [e5]
    exact wrap64_id _ (by omega) (by omega)
  · intro hmem
    apply hm2
    exact List.mem_map.2 ⟨(m : Int), hmem, by simp⟩
  · intro k hk0 hkn hk
    have h1 : k.toNat ∉ nums.map Int.toNat := by
      intro h
      obtain ⟨y, hy, hyk⟩ := List.mem_map.1 h
      have := (hrange y hy).1
      have : y = k := by omega
      exact hk (this ▸ hy)
    have := hm3 k.toNat (by omega) h1
    omega

theorem range_sum_two (k : Nat) :
    ((List.range k).map (fun i : Nat => (i : Int))).sum * 2 = (k : Int) * ((k : Int) - 1) := by
  induction k with
  | zero => simp
  | succ k ih =>
    rw [List.range_succ, List.map_append, List.sum_append, Int.add_mul, ih]
    simp only [List.map_cons, List.map_nil, List.sum_cons, List.sum_nil]
    push_cast
    ring

theorem intmax_arith :
    wrap64 ((wrap64 (wrap64 (1 * 2147483647) * wrap32 (2147483647 + 1))).tdiv 2 -
      2305843005992468481) = -4611686014132420609 := by
  decide

/-- C10 at the failing input `n = 2^31 - 1`, `nums = 0, 1, ..., 2^31 - 2`: the list has
`n` pairwise distinct elements of `0..n` and misses exactly `n = 2147483647`, but `n + 1`
wraps in `int` and the program writes `-4611686014132420609`. -/
theorem missingNumber_int_max :
    ((List.range 2147483647).map (fun i : Nat => (i : Int))).length = 2147483647 ∧
      ((List.range 2147483647).map (fun i : Nat => (i : Int))).Nodup ∧
      (∀ x ∈ (List.range 2147483647).map (fun i : Nat => (i : Int)), 0 ≤ x ∧ x ≤ 2147483647) ∧
      (2147483647 : Int) ∉ (List.range 2147483647).map (fun i : Nat => (i : Int)) ∧
      missingNumber ((List.range 2147483647).map (fun i : Nat => (i : Int))) =
        -4611686014132420609 := by
  have hlen : ((List.range 2147483647).map (fun i : Nat => (i : Int))).length = 2147483647 := by
    rw [List.length_map, List.length_range]
  have hmem : ∀ x ∈ (List.range 2147483647).map (fun i : Nat => (i : Int)),
      0 ≤ x ∧ x < 2147483647 := by
    intro x hx
    obtain ⟨i, hi, rfl⟩ := List.mem_map.1 hx
    have := List.mem_range.1 hi
    constructor
    · exact Int.ofNat_nonneg i
    · exact_mod_cast this
  refine ⟨hlen, ?_, ?_, ?_, ?_⟩
  · exact (List.nodup_range _).map (fun a b h => by exact_mod_cast h)
  · intro x hx
    have := hmem x hx
    omega
  · intro h
    have := hmem _ h
    omega
  · have h2 := range_sum_two 2147483647
    have hsum : ((List.range 2147483647).map (fun i : Nat => (i : Int))).sum =
        2305843005992468481 := by
      have h3 : ((2147483647 : Nat) : Int) * (((2147483647 : Nat) : Int) - 1) =
          4611686011984936962 := by decide
      rw [h3] at h2
      omega
    have hs : sumLoop ((List.range 2147483647).map (fun i : Nat => (i : Int))) 0 =
        2305843005992468481 := by
      rw [sumLoop_eq_sum _ 0 (fun x hx => (hmem x hx).1) (le_refl 0) (by rw [hsum]; decide),
        hsum]
      decide
    have hn : ((((List.range 2147483647).map (fun i : Nat => (i : Int))).length : Nat) : Int) =
        2147483647 := by
      rw [hlen]
      rfl
    rw [missingNumber_of _ _ _ hn hs]
    exact intmax_arith

/-! ## Theorems: array intersection -/

theorem mem_usInsert (s : List Int) (x y : Int) : y ∈ usInsert s x ↔ y = x ∨ y ∈ s := by
  unfold usInsert
  split_ifs with h
  · constructor
    · exact Or.inr
    · rintro (rfl | h2)
      · exact h
      · exact h2
  · exact List.mem_cons

theorem nodup_usInsert (s : List Int) (x : Int) (h : s.Nodup) : (usInsert s x).Nodup := by
  unfold usInsert
  split_ifs with hx
  · exact h
  · exact List.nodup_cons.2 ⟨hx, h⟩

theorem usFold_spec : ∀ (a init : List Int), init.Nodup →
    (a.foldl usInsert init).Nodup ∧ ∀ y, y ∈ a.foldl usInsert init ↔ y ∈ init ∨ y ∈ a := by
  intro a
  induction a with
  | nil =>
    intro init h
    exact ⟨h, fun y => by simp⟩
  | cons x xs ih =>
    intro init h
    obtain ⟨h1, h2⟩ := ih (usInsert init x) (nodup_usInsert init x h)
    refine ⟨h1, fun y => ?_⟩
    rw [List.foldl_cons, h2 y, mem_usInsert, List.mem_cons]
    tauto

theorem intersectLoop_spec (s1 : List Int) : ∀ (b res : List Int), res.Nodup →
    (intersectLoop s1 b res).Nodup ∧
      ∀ y, y ∈ intersectLoop s1 b res ↔ y ∈ res ∨ (y ∈ b ∧ y ∈ s1) := by
  intro b
  induction b with
  | nil =>
    intro res h
    exact ⟨h, fun y => by simp [intersectLoop]⟩
  | cons x xs ih =>
    intro res h
    simp only [intersectLoop]
    by_cases hx : x ∈ s1
    · have hc : s1.count x ≠ 0 := fun h0 => (List.count_eq_zero.1 h0) hx
      rw [if_pos hc]
      obtain ⟨h1, h2⟩ := ih (usInsert res x) (nodup_usInsert res x h)
      refine ⟨h1, fun y => ?_⟩
      rw [h2 y, mem_usInsert, List.mem_cons]
      constructor
      · rintro ((rfl | h3) | ⟨h3, h4⟩)
        · exact Or.inr ⟨Or.inl rfl, hx⟩
        · exact Or.inl h3
        · exact Or.inr ⟨Or.inr h3, h4⟩
      · rintro (h3 | ⟨rfl | h3, h4⟩)
        · exact Or.inl (Or.inr h3)
        · exact Or.inl (Or.inl rfl)
        · exact Or.inr ⟨h3, h4⟩
    · have hc : ¬ s1.count x ≠ 0 := fun h0 => h0 (List.count_eq_zero.2 hx)
      rw [if_neg hc]
      obtain ⟨h1, h2⟩ := ih res h
      refine ⟨h1, fun y => ?_⟩
      rw [h2 y, List.mem_cons]
      constructor
      · rintro (h3 | ⟨h3, h4⟩)
        · exact Or.inl h3
        · exact Or.inr ⟨Or.inr h3, h4⟩
      · rintro (h3 | ⟨rfl | h3, h4⟩)
        · exact Or.inl h3
        · exact absurd h4 hx
        · exact Or.inr ⟨h3, h4⟩

/-- C11 (array intersection): for all integer lists `a` and `b`, possibly empty or with
repeated values, an integer `x` is among the values written if and only if it occurs in
`a` and in `b`, and every such `x` is written exactly once. -/
theorem intersection_spec (a b : List Int) (x : Int) :
    (x ∈ intersection a b ↔ x ∈ a ∧ x ∈ b) ∧ (intersection a b).Nodup ∧
      (intersection a b).count x = if x ∈ a ∧ x ∈ b then 1 else 0 := by
  obtain ⟨-, hs1⟩ := usFold_spec a [] List.nodup_nil
  obtain ⟨hnd, hmem⟩ := intersectLoop_spec (usOfRange a) b [] List.nodup_nil
  have hiff : x ∈ intersection a b ↔ x ∈ a ∧ x ∈ b := by
    unfold intersection
    rw [hmem x]
    unfold usOfRange
    rw [hs1 x]
    simp only [List.not_mem_nil, false_or]
    tauto
  refine ⟨hiff, hnd, ?_⟩
  split_ifs with h
  · exact List.count_eq_one_of_mem hnd (hiff.2 h)
  · exact List.count_eq_zero.2 (fun hx => h (hiff.1 hx))

/-! ## Theorems: output of the search programs -/

/-- Inside the vector, the debug loop returns what `searchLoop` returns and writes one
DEBUG line for each execution of the body. -/
theorem debugLoop_spec (a : List Int) (t : Int) :
    ∀ (fuel : Nat) (l r : Int), 0 ≤ l → r < a.length →
      (debugLoop a t fuel l r).2 = searchLoop a t fuel l r ∧
      (debugLoop a t fuel l r).1.length = searchIters a t fuel l r ∧
      ∀ o ∈ (debugLoop a t fuel l r).1, ∃ l2 r2 m am, o = Out.debugIter l2 r2 m am := by
  intro fuel
  induction fuel with
  | zero =>
    intro l r _ _
    by_cases hlr : l ≤ r <;> simp [debugLoop, searchLoop, searchIters, hlr]
  | succ fuel ih =>
    intro l r h0 hr
    by_cases hlr : l ≤ r
    · obtain ⟨hm1, hm2, -⟩ := mid_bounds l r hlr
      have hread := readAt_eq_val a (mid l r) (by omega) (by omega)
      have hs := searchStep_eq a t l r h0 hlr hr
      have hstep : debugStep a t l r =
          (some (Out.debugIter l r (mid l r) (val a (mid l r))), searchStep a t l r) := by
        simp only [debugStep, hread]
      simp only [debugLoop, searchLoop, searchIters, if_pos hlr, hstep]
      split_ifs at hs with c1 c2 c3 c4
      · rw [hs]
        simp
      · rw [hs]
        obtain ⟨e1, e2, e3⟩ := ih l (mid l r - 1) h0 (by omega)
        refine ⟨e1, by simp [e2, Nat.add_comm], ?_⟩
        intro o ho
        simp only [Option.toList, List.singleton_append, List.mem_cons] at ho
        rcases ho with rfl | ho
        · exact ⟨_, _, _, _, rfl⟩
        · exact e3 o ho
      · rw [hs]
        obtain ⟨e1, e2, e3⟩ := ih (mid l r + 1) r (by omega) hr
        refine ⟨e1, by simp [e2, Nat.add_comm], ?_⟩
        intro o ho
        simp only [Option.toList, List.singleton_append, List.mem_cons] at ho
        rcases ho with rfl | ho
        · exact ⟨_, _, _, _, rfl⟩
        · exact e3 o ho
      · rw [hs]
        obtain ⟨e1, e2, e3⟩ := ih (mid l r + 1) r (by omega) hr
        refine ⟨e1, by simp [e2, Nat.add_comm], ?_⟩
        intro o ho
        simp only [Option.toList, List.singleton_append, List.mem_cons] at ho
        rcases ho with rfl | ho
        · exact ⟨_, _, _, _, rfl⟩
        · exact e3 o ho
      · rw [hs]
        obtain ⟨e1, e2, e3⟩ := ih l (mid l r - 1) h0 (by omega)
        refine ⟨e1, by simp [e2, Nat.add_comm], ?_⟩
        intro o ho
        simp only [Option.toList, List.singleton_append, List.mem_cons] at ho
        rcases ho with rfl | ho
        · exact ⟨_, _, _, _, rfl⟩
        · exact e3 o ho
    · simp [debugLoop, searchLoop, searchIters, hlr]

/-- C12, amended: in `solution_953adc38.cpp` the loop writes nothing and the only output
from the start of the loop on is the integer result, written once after the loop.  In the
debug variant `solution_2f68406d.cpp` the loop writes one DEBUG line per executed
iteration; the result, the same integer, is written once after the loop. -/
theorem search_output (a : List Int) (t : Int) :
    ∃ (v : Int) (lines : List Out), locate a t = Outcome.ans v ∧
      plainMain a t = ([Out.result v], Outcome.ans v) ∧
      debugLoop a t a.length 0 ((a.length : Int) - 1) = (lines, Outcome.ans v) ∧
      lines.length = searchIters a t a.length 0 ((a.length : Int) - 1) ∧
      (∀ o ∈ lines, ∃ l r m am, o = Out.debugIter l r m am) ∧
      debugMain a t =
        (Out.debugHeader a.length t :: lines ++ [Out.result v], Outcome.ans v) := by
  obtain ⟨e1, e2, e3⟩ := debugLoop_spec a t a.length 0 ((a.length : Int) - 1) (le_refl 0)
    (by omega)
  have hv : ∃ v, locate a t = Outcome.ans v := by
    rcases searchLoop_range a t a.length 0 ((a.length : Int) - 1) (by omega) (by omega)
      (by omega) with h | ⟨i, -, -, -, h⟩
    · exact ⟨-1, h⟩
    · exact ⟨i, h⟩
  obtain ⟨v, hv⟩ := hv
  have hd : debugLoop a t a.length 0 ((a.length : Int) - 1) =
      ((debugLoop a t a.length 0 ((a.length : Int) - 1)).1, Outcome.ans v) := by
    apply Prod.ext
    · rfl
    · rw [e1]
      exact hv
  refine ⟨v, (debugLoop a t a.length 0 ((a.length : Int) - 1)).1, hv, ?_, hd, e2, e3, ?_⟩
  · simp only [plainMain, hv]
  · unfold debugMain
    rw [hd]

/-- C12, counterexample: on `[4,5,6,7,0,1,2]` with target `0` the loop of the debug
variant writes three DEBUG lines, so the output from the loop on is not the result
alone. -/
theorem debug_loop_writes :
    (debugLoop [4, 5, 6, 7, 0, 1, 2] 0 7 0 6).1 =
        [Out.debugIter 0 6 3 7, Out.debugIter 4 6 5 1, Out.debugIter 4 4 4 0] ∧
      (debugLoop [4, 5, 6, 7, 0, 1, 2] 0 7 0 6).1 ≠ [] ∧
      debugMain [4, 5, 6, 7, 0, 1, 2] 0 =
        ([Out.debugHeader 7 0, Out.debugIter 0 6 3 7, Out.debugIter 4 6 5 1,
          Out.debugIter 4 4 4 0, Out.result 4], Outcome.ans 4) := by
  decide

/-! ## Theorems: scenarios, duplicates, termination, halving -/

/-- C13 (concrete scenarios): `locate([4,5,6,7,0,1,2], 0) = 4`,
`locate([4,5,6,7,0,1,2], 3) = -1`, `locate([1], 0) = -1`, `locate([5,1,3], 5) = 0`,
`locate([5,1,3], 3) = 2` and `locate([], 5) = -1`. -/
theorem locate_scenarios :
    locate [4, 5, 6, 7, 0, 1, 2] 0 = Outcome.ans 4 ∧
      locate [4, 5, 6, 7, 0, 1, 2] 3 = Outcome.ans (-1) ∧
      locate [1] 0 = Outcome.ans (-1) ∧
      locate [5, 1, 3] 5 = Outcome.ans 0 ∧
      locate [5, 1, 3] 3 = Outcome.ans 2 ∧
      locate [] 5 = Outcome.ans (-1) := by
  decide

/-- C14 (duplicate-value gap): `S = [1,0,1,1,1]` is a rotation of the non-decreasing list
`[0,1,1,1,1]`, which contains duplicates, the target `0` occurs in `S` (at index 1), and the
search returns `-1`: in the first iteration `a[l] <= a[m]` holds (`1 <= 1`), the target is
not in `[a[l], a[m])`, and the search moves right to `l = 3`. -/
theorem locate_duplicate_gap :
    ∃ (S B : List Int) (k : Nat) (t : Int), B.Sorted (· ≤ ·) ∧ ¬ B.Nodup ∧ S = B.rotate k ∧
      t ∈ S ∧ locate S t = Outcome.ans (-1) ∧
      S = [1, 0, 1, 1, 1] ∧ t = 0 ∧ S[1]? = some t ∧
      searchStep S t 0 4 = Step.next 3 4 :=
  ⟨[1, 0, 1, 1, 1], [0, 1, 1, 1, 1], 4, 0, by decide, by decide, by decide, by decide,
    by decide, rfl, rfl, by decide, by decide⟩

/-- Once the budget covers the window, the result of the loop does not depend on it. -/
theorem searchLoop_stable (a : List Int) (t : Int) :
    ∀ (f1 f2 : Nat) (l r : Int), 0 ≤ l → r < a.length → r - l + 1 ≤ f1 → r - l + 1 ≤ f2 →
      searchLoop a t f1 l r = searchLoop a t f2 l r := by
  intro f1
  induction f1 with
  | zero =>
    intro f2 l r _ _ h1 _
    have hlr : ¬ l ≤ r := by omega
    cases f2 <;> simp [searchLoop, hlr]
  | succ f1 ih =>
    intro f2 l r h0 hr h1 h2
    cases f2 with
    | zero =>
      have hlr : ¬ l ≤ r := by omega
      simp [searchLoop, hlr]
    | succ f2 =>
      by_cases hlr : l ≤ r
      · obtain ⟨hm1, hm2, -⟩ := mid_bounds l r hlr
        have hs := searchStep_eq a t l r h0 hlr hr
        simp only [searchLoop, if_pos hlr]
        split_ifs at hs with c1 c2 c3 c4
        · rw [hs]
        · rw [hs]
          exact ih f2 l (mid l r - 1) h0 (by omega) (by push_cast at h1 ⊢; omega)
            (by push_cast at h2 ⊢; omega)
        · rw [hs]
          exact ih f2 (mid l r + 1) r (by omega) hr (by push_cast at h1 ⊢; omega)
            (by push_cast at h2 ⊢; omega)
        · rw [hs]
          exact ih f2 (mid l r + 1) r (by omega) hr (by push_cast at h1 ⊢; omega)
            (by push_cast at h2 ⊢; omega)
        · rw [hs]
          exact ih f2 l (mid l r - 1) h0 (by omega) (by push_cast at h1 ⊢; omega)
            (by push_cast at h2 ⊢; omega)
      · simp [searchLoop, hlr]

/-- From a reached pair with `l ≤ r` the body either breaks with a match at `m` or leaves
one of the two halves around `m`. -/
theorem searchStep_cases (a : List Int) (t l r : Int) (hreach : Reach a t l r) (hlr : l ≤ r) :
    l ≤ mid l r ∧ mid l r ≤ r ∧
      ((searchStep a t l r = Step.found (mid l r) ∧ readAt a (mid l r) = some t) ∨
        searchStep a t l r = Step.next l (mid l r - 1) ∨
        searchStep a t l r = Step.next (mid l r + 1) r) := by
  obtain ⟨h0, hr⟩ := reach_bounds a t l r hreach
  obtain ⟨hm1, hm2, -⟩ := mid_bounds l r hlr
  have hs := searchStep_eq a t l r h0 hlr hr
  refine ⟨hm1, hm2, ?_⟩
  split_ifs at hs with c1 c2 c3 c4
  · left
    exact ⟨hs, by rw [readAt_eq_val a (mid l r) (by omega) (by omega), c1]⟩
  · exact Or.inr (Or.inl hs)
  · exact Or.inr (Or.inr hs)
  · exact Or.inr (Or.inr hs)
  · exact Or.inr (Or.inl hs)

/-- C15 (termination): for every vector and target, with or without the precondition, the
loop reaches a terminal state: every iteration budget of at least `n` gives the same
result `ans v`; and an iteration entered from a reached pair `(l, r)` either returns with
a match at `m` or sets `r = m - 1` or `l = m + 1` with `l ≤ m ≤ r`, which strictly
decreases `r - l`. -/
theorem locate_terminates (a : List Int) (t : Int) :
    (∃ v, locate a t = Outcome.ans v ∧
      ∀ fuel, a.length ≤ fuel → searchLoop a t fuel 0 ((a.length : Int) - 1) = Outcome.ans v) ∧
    ∀ l r : Int, Reach a t l r → l ≤ r →
      l ≤ mid l r ∧ mid l r ≤ r ∧
        (searchStep a t l r = Step.found (mid l r) ∨
          ∃ l2 r2, searchStep a t l r = Step.next l2 r2 ∧
            ((l2 = l ∧ r2 = mid l r - 1) ∨ (l2 = mid l r + 1 ∧ r2 = r)) ∧
            r2 - l2 < r - l) := by
  constructor
  · have hv : ∃ v, locate a t = Outcome.ans v := by
      rcases searchLoop_range a t a.length 0 ((a.length : Int) - 1) (by omega) (by omega)
        (by omega) with h | ⟨i, -, -, -, h⟩
      · exact ⟨-1, h⟩
      · exact ⟨i, h⟩
    obtain ⟨v, hv⟩ := hv
    refine ⟨v, hv, fun fuel hf => ?_⟩
    rw [← hv]
    exact searchLoop_stable a t fuel a.length 0 ((a.length : Int) - 1) (le_refl 0) (by omega)
      (by omega) (by omega)
  · intro l r hreach hlr
    obtain ⟨hm1, hm2, h⟩ := searchStep_cases a t l r hreach hlr
    refine ⟨hm1, hm2, ?_⟩
    rcases h with ⟨h, -⟩ | h | h
    · exact Or.inl h
    · exact Or.inr ⟨l, mid l r - 1, h, Or.inl ⟨rfl, rfl⟩, by omega⟩
    · exact Or.inr ⟨mid l r + 1, r, h, Or.inr ⟨rfl, rfl⟩, by omega⟩

theorem locate_terminates_witness :
    Reach [5, 1, 3] 3 0 2 ∧ (0 : Int) ≤ 2 ∧
      (searchStep [5, 1, 3] 3 0 2 = Step.found (mid 0 2) ∨
        ∃ l2 r2, searchStep [5, 1, 3] 3 0 2 = Step.next l2 r2 ∧
          ((l2 = 0 ∧ r2 = mid 0 2 - 1) ∨ (l2 = mid 0 2 + 1 ∧ r2 = 2)) ∧ r2 - l2 < 2 - 0) :=
  ⟨Reach.init, by decide,
    ((locate_terminates [5, 1, 3] 3).2 0 2 Reach.init (by decide)).2.2⟩
theorem halvingBound_half (w w2 : Nat) (hw : 1 ≤ w) (h : w2 ≤ w / 2) :
    1 + halvingBound w2 ≤ halvingBound w := by
  unfold halvingBound
  by_cases h2 : w2 = 0
  · simp only [h2, if_true]
    have : w ≠ 0 := by omega
    simp only [this, if_false]
    omega
  · have hw2 : w ≠ 0 := by omega
    simp only [h2, hw2, if_false]
    have h3 : 2 ≤ w := by omega
    have h4 : Nat.log 2 w = Nat.log 2 (w / 2) + 1 := Nat.log_of_one_lt_of_le (by omega) h3
    have h5 : Nat.log 2 w2 ≤ Nat.log 2 (w / 2) := Nat.log_mono_right h
    omega

/-- The number of iterations is bounded by `halvingBound` of the window size. -/
theorem searchIters_le (a : List Int) (t : Int) :
    ∀ (fuel : Nat) (l r : Int), 0 ≤ l → r < a.length →
      searchIters a t fuel l r ≤ halvingBound (r - l + 1).toNat := by
  intro fuel
  induction fuel with
  | zero =>
    intro l r _ _
    simp [searchIters]
  | succ fuel ih =>
    intro l r h0 hr
    by_cases hlr : l ≤ r
    · obtain ⟨hm1, hm2, hm3⟩ := mid_bounds l r hlr
      have hs := searchStep_eq a t l r h0 hlr hr
      have hw : 1 ≤ (r - l + 1).toNat := by omega
      have hone : 1 ≤ halvingBound (r - l + 1).toNat := by
        unfold halvingBound
        have : (r - l + 1).toNat ≠ 0 := by omega
        simp only [this, if_false]
        omega
      simp only [searchIters, if_pos hlr]
      split_ifs at hs with c1 c2 c3 c4
      · rw [hs]
        exact hone
      · rw [hs]
        exact le_trans (Nat.add_le_add_left (ih l (mid l r - 1) h0 (by omega)) 1)
          (halvingBound_half _ _ hw (by omega))
      · rw [hs]
        exact le_trans (Nat.add_le_add_left (ih (mid l r + 1) r (by omega) hr) 1)
          (halvingBound_half _ _ hw (by omega))
      · rw [hs]
        exact le_trans (Nat.add_le_add_left (ih (mid l r + 1) r (by omega) hr) 1)
          (halvingBound_half _ _ hw (by omega))
      · rw [hs]
        exact le_trans (Nat.add_le_add_left (ih l (mid l r - 1) h0 (by omega)) 1)
          (halvingBound_half _ _ hw (by omega))
    · simp [searchIters, hlr]

/-- C16 (iterative halving): an iteration that does not return, entered from a reached
pair `(l, r)`, replaces the window size `w = r - l + 1` by a size of at most `floor(w/2)`;
the loop body executes at most `floor(log2 n) + 1` times for `n ≥ 1` and never for
`n = 0`. -/
theorem locate_halving (a : List Int) (t : Int) :
    (∀ l r l2 r2 : Int, Reach a t l r → l ≤ r → searchStep a t l r = Step.next l2 r2 →
      r2 - l2 + 1 ≤ (r - l + 1) / 2) ∧
    (1 ≤ a.length →
      searchIters a t a.length 0 ((a.length : Int) - 1) ≤ Nat.log 2 a.length + 1) ∧
    (a.length = 0 → searchIters a t a.length 0 ((a.length : Int) - 1) = 0) := by
  refine ⟨?_, ?_, ?_⟩
  · intro l r l2 r2 hreach hlr hstep
    obtain ⟨hm1, hm2, h⟩ := searchStep_cases a t l r hreach hlr
    obtain ⟨-, -, hm3⟩ := mid_bounds l r hlr
    rcases h with ⟨h, -⟩ | h | h
    · rw [h] at hstep
      exact absurd hstep (by simp)
    · rw [h] at hstep
      simp only [Step.next.injEq] at hstep
      omega
    · rw [h] at hstep
      simp only [Step.next.injEq] at hstep
      omega
  · intro hn
    have h := searchIters_le a t a.length 0 ((a.length : Int) - 1) (le_refl 0) (by omega)
    have e : ((a.length : Int) - 1 - 0 + 1).toNat = a.length := by omega
    rw [e] at h
    unfold halvingBound at h
    have : a.length ≠ 0 := by omega
    simpa only [this, if_false] using h
  · intro hn
    have h := searchIters_le a t a.length 0 ((a.length : Int) - 1) (le_refl 0) (by omega)
    have e : ((a.length : Int) - 1 - 0 + 1).toNat = a.length := by omega
    rw [e] at h
    unfold halvingBound at h
    simp only [hn, if_true] at h
    rw [hn]
    omega

theorem locate_halving_witness :
    Reach [5, 1, 3] 3 0 2 ∧ (0 : Int) ≤ 2 ∧ searchStep [5, 1, 3] 3 0 2 = Step.next 2 2 ∧
      (2 : Int) - 2 + 1 ≤ (2 - 0 + 1) / 2 ∧
      searchIters [5, 1, 3] 3 3 0 2 ≤ Nat.log 2 3 + 1 :=
  ⟨Reach.init, by decide, by decide,
    (locate_halving [5, 1, 3] 3).1 0 2 2 2 Reach.init (by decide) (by decide),
    (locate_halving [5, 1, 3] 3).2.1 (by decide)⟩

/-- C17 (midpoint arithmetic): for `int` values `0 ≤ low ≤ high ≤ 2^31 - 1` every
intermediate value of `low + (high - low) / 2` is an `int`, so the machine result is the
exact one; it equals `floor((low + high) / 2)` and lies in `[low, high]`.  The naive
`(low + high) / 2` overflows for some such values. -/
theorem mid_no_overflow (low high : Int) (h0 : 0 ≤ low) (h1 : low ≤ high)
    (h2 : high ≤ 2147483647) :
    inInt32 (high - low) ∧ inInt32 ((high - low).tdiv 2) ∧
      inInt32 (low + (high - low).tdiv 2) ∧
      midWrapped low high = mid low high ∧
      mid low high = (low + high) / 2 ∧ low ≤ mid low high ∧ mid low high ≤ high ∧
      ∃ lo hi : Int, 0 ≤ lo ∧ lo ≤ hi ∧ hi ≤ 2147483647 ∧ ¬ inInt32 (lo + hi) ∧
        midNaive lo hi ≠ (lo + hi) / 2 := by
  obtain ⟨hm1, hm2, hm3⟩ := mid_bounds low high h1
  have ht : (high - low).tdiv 2 = (high - low) / 2 := Int.tdiv_eq_ediv (by omega) (by omega)
  have e1 : wrap32 (high - low) = high - low := wrap32_id _ (by omega) (by omega)
  have e2 : wrap32 ((high - low).tdiv 2) = (high - low).tdiv 2 :=
    wrap32_id _ (by omega) (by omega)
  have e3 : wrap32 (low + (high - low).tdiv 2) = low + (high - low).tdiv 2 :=
    wrap32_id _ (by omega) (by omega)
  refine ⟨?_, ?_, ?_, ?_, by omega, hm1, hm2, ?_⟩
  · unfold inInt32
    omega
  · unfold inInt32
    omega
  · unfold inInt32
    omega
  · unfold midWrapped mid
    rw [e1, e2, e3]
  · refine ⟨2147483647, 2147483647, by decide, by decide, by decide, ?_, ?_⟩
    · unfold inInt32
      decide
    · decide

theorem mid_no_overflow_witness :
    (0 : Int) ≤ 1073741824 ∧ (1073741824 : Int) ≤ 2147483647 ∧
      (2147483647 : Int) ≤ 2147483647 ∧
      midWrapped 1073741824 2147483647 = mid 1073741824 2147483647 ∧
      mid 1073741824 2147483647 = (1073741824 + 2147483647) / 2 :=
  ⟨by decide, by decide, by decide,
    (mid_no_overflow 1073741824 2147483647 (by decide) (by decide) (by decide)).2.2.2.1,
    (mid_no_overflow 1073741824 2147483647 (by decide) (by decide) (by decide)).2.2.2.2.1⟩

/-! ## Theorems: shape of the merged intervals -/

/-- The loop keeps `res` (with `back` at its end) a chain of well-formed intervals, each
ending strictly before the next one starts. -/
theorem mergeLoop_shape : ∀ (rest res : List (Int × Int)) (back : Int × Int),
    (res ++ [back]).Chain' (fun a b => a.2 < b.1) → (∀ iv ∈ res ++ [back], iv.1 ≤ iv.2) →
    (∀ iv ∈ rest, iv.1 ≤ iv.2) →
    (mergeLoop res back rest).Chain' (fun a b => a.2 < b.1) ∧
      ∀ iv ∈ mergeLoop res back rest, iv.1 ≤ iv.2 := by
  intro rest
  induction rest with
  | nil =>
    intro res back hc hv _
    exact ⟨hc, hv⟩
  | cons iv rest ih =>
    intro res back hc hv hrest
    have hback : back.1 ≤ back.2 := hv back (by simp)
    have hiv : iv.1 ≤ iv.2 := hrest iv (by simp)
    simp only [mergeLoop]
    split_ifs with c
    · apply ih res (back.1, max back.2 iv.2) _ _ (fun j hj => hrest j (by simp [hj]))
      · obtain ⟨h1, -, h3⟩ := List.chain'_append.1 hc
        refine List.chain'_append.2 ⟨h1, List.chain'_singleton _, ?_⟩
        intro x hx y hy
        have := h3 x hx back (by simp)
        simp only [List.head?_cons, Option.mem_def, Option.some.injEq] at hy
        rw [← hy]
        exact this
      · intro j hj
        rcases List.mem_append.1 hj with h | h
        · exact hv j (List.mem_append.2 (Or.inl h))
        · rw [List.mem_singleton] at h
          rw [h]
          exact le_trans hback (le_max_left _ _)
    · apply ih (res ++ [back]) iv _ _ (fun j hj => hrest j (by simp [hj]))
      · refine List.Chain'.append hc (List.chain'_singleton _) ?_
        intro x hx y hy
        rw [List.getLast?_concat] at hx
        simp only [List.head?_cons, Option.mem_def, Option.some.injEq] at hx hy
        rw [← hx, ← hy]
        omega
      · intro j hj
        rcases List.mem_append.1 hj with h | h
        · exact hv j h
        · rw [List.mem_singleton] at h
          rw [h]
          exact hiv

/-- In a chain of well-formed intervals every interval ends strictly before every later
one starts. -/
theorem chain_pairwise : ∀ l : List (Int × Int), (∀ iv ∈ l, iv.1 ≤ iv.2) →
    l.Chain' (fun a b => a.2 < b.1) → l.Pairwise (fun a b => a.2 < b.1) := by
  intro l
  induction l with
  | nil => intro _ _; exact List.Pairwise.nil
  | cons a l ih =>
    intro hv hc
    obtain ⟨h1, h2⟩ := List.chain'_cons'.1 hc
    have hp := ih (fun j hj => hv j (by simp [hj])) h2
    refine List.pairwise_cons.2 ⟨?_, hp⟩
    intro b hb
    cases l with
    | nil => exact absurd hb (by simp)
    | cons c l2 =>
      have hac : a.2 < c.1 := h1 c (by simp)
      have hcv : c.1 ≤ c.2 := hv c (by simp)
      rcases List.mem_cons.1 hb with rfl | hb2
      · exact hac
      · have := (List.pairwise_cons.1 hp).1 b hb2
        omega

/-- On a chain the loop merges nothing. -/
theorem mergeLoop_noop : ∀ (rest res : List (Int × Int)) (back : Int × Int),
    (back :: rest).Chain' (fun a b => a.2 < b.1) →
    mergeLoop res back rest = res ++ back :: rest := by
  intro rest
  induction rest with
  | nil => intro res back _; rfl
  | cons iv rest ih =>
    intro res back hc
    obtain ⟨h1, h2⟩ := List.chain'_cons.1 hc
    have c : ¬ iv.1 ≤ back.2 := by omega
    simp only [mergeLoop, if_neg c]
    rw [ih (res ++ [back]) iv h2]
    simp

/-- C18 (output shape of `mergeIntervals`): for every list of intervals `[s, e]` with
`s ≤ e`, every result interval has `s' ≤ e'`, consecutive result intervals satisfy
`e1 < s2`, hence the result is sorted by strictly increasing start and any two of its
intervals are disjoint and do not touch, and `mergeIntervals` returns its own result
unchanged. -/
theorem mergeIntervals_shape (intervals : List (Int × Int))
    (hvalid : ∀ iv ∈ intervals, iv.1 ≤ iv.2) :
    (∀ iv ∈ mergeIntervals intervals, iv.1 ≤ iv.2) ∧
      (mergeIntervals intervals).Chain' (fun a b => a.2 < b.1) ∧
      (mergeIntervals intervals).Pairwise (fun a b => a.1 < b.1) ∧
      (mergeIntervals intervals).Pairwise (fun a b => a.2 < b.1) ∧
      mergeIntervals (mergeIntervals intervals) = mergeIntervals intervals := by
  have hshape : (mergeIntervals intervals).Chain' (fun a b => a.2 < b.1) ∧
      ∀ iv ∈ mergeIntervals intervals, iv.1 ≤ iv.2 := by
    cases hint : intervals with
    | nil => simp [mergeIntervals]
    | cons i0 irest =>
      have hperm : (sortIntervals intervals).Perm intervals := List.perm_insertionSort ivLe _
      have hdef : mergeIntervals intervals =
          match sortIntervals intervals with
          | [] => []
          | first :: rest => mergeLoop [] first rest := by
        rw [hint]
        rfl
      rw [← hint, hdef]
      cases hso : sortIntervals intervals with
      | nil => simp
      | cons first rest =>
        have hv2 : ∀ iv ∈ first :: rest, iv.1 ≤ iv.2 := by
          intro iv hiv
          rw [← hso] at hiv
          exact hvalid iv (hperm.mem_iff.1 hiv)
        simp only []
        exact mergeLoop_shape rest [] first (List.chain'_singleton _)
          (fun iv hiv => hv2 iv (by
            have : iv = first := by simpa using hiv
            simp [this]))
          (fun iv hiv => hv2 iv (by simp [hiv]))
  obtain ⟨hc, hv⟩ := hshape
  have hp := chain_pairwise _ hv hc
  have hstart : (mergeIntervals intervals).Pairwise (fun a b => a.1 < b.1) := by
    refine List.Pairwise.imp_of_mem ?_ hp
    intro a b ha _ hab
    have := hv a ha
    omega
  refine ⟨hv, hc, hstart, hp, ?_⟩
  cases hR : mergeIntervals intervals with
  | nil => rfl
  | cons first rest =>
    rw [hR] at hc hstart
    have hsorted : (first :: rest).Sorted ivLe := by
      unfold List.Sorted
      refine List.Pairwise.imp ?_ hstart
      intro a b h
      exact Or.inl h
    have hso : sortIntervals (first :: rest) = first :: rest := hsorted.insertionSort_eq
    have hdef : mergeIntervals (first :: rest) =
        match sortIntervals (first :: rest) with
        | [] => []
        | f :: r => mergeLoop [] f r := rfl
    rw [hdef, hso]
    simp only []
    rw [mergeLoop_noop rest [] first hc]
    rfl

theorem mergeIntervals_shape_witness :
    (∀ iv ∈ ([(8, 10), (1, 3), (2, 6), (15, 18)] : List (Int × Int)), iv.1 ≤ iv.2) ∧
      mergeIntervals [(8, 10), (1, 3), (2, 6), (15, 18)] = [(1, 6), (8, 10), (15, 18)] ∧
      (mergeIntervals [(8, 10), (1, 3), (2, 6), (15, 18)]).Chain' (fun a b => a.2 < b.1) ∧
      mergeIntervals (mergeIntervals [(8, 10), (1, 3), (2, 6), (15, 18)]) =
        mergeIntervals [(8, 10), (1, 3), (2, 6), (15, 18)] :=
  ⟨by decide, by decide,
    (mergeIntervals_shape [(8, 10), (1, 3), (2, 6), (15, 18)] (by decide)).2.1,
    (mergeIntervals_shape [(8, 10), (1, 3), (2, 6), (15, 18)] (by decide)).2.2.2.2⟩

end CodeVisualiser
